import Mathlib

/-!
# JotDB: verification of the JSON codec and document-store layer

Shallow embedding of the JotDB repository (Go): the custom JSON value
codec (`marshalJSON` / `unmarshalJSON` with its recursive-descent
`jsonParser`), and the document-store operations (`Store`, `Retrieve`,
`Delete`, `Query`, `BatchStore`, `BatchRetrieve`) over the bitcask
backend, modelled through the transaction contract the store relies on.

Modelling conventions:

* Go `interface{}` values reachable in this code base are embedded as the
  inductive `GoVal`; Go `int` and `int64` are distinct dynamic types and
  get distinct constructors (`writeJSON` has a case for `int` but not for
  `int64`, which is exactly what claim C3 is about).
* Go strings and byte slices are modelled as `List Char` of Unicode scalar
  values (the rune level).  All inputs the claims exercise are ASCII, where
  byte positions and rune positions coincide, so the parser's reported
  offsets are faithful.
* `float64` values are carried as the exact decimal components recovered by
  `strconv.ParseFloat` (`neg`, `mant`, `exp10`); IEEE-754 binary rounding
  and shortest-round-trip formatting are not modelled.  No theorem below
  depends on the value or the formatting of a float, only on which variant
  a literal decodes to and on parse failure, which the syntactic and range
  model captures.
* The Go parser indexes `p.data[p.pos]` in one place without a bounds
  check; the model makes that explicit: `PRes.crash` embeds the Go runtime
  panic (index out of range).  `PRes.fuelOut` is a model artifact of the
  fuel-based recursion and is unreachable for the fuel budgets used.
* The bitcask backend is external to the repository; it is modelled by the
  adapter contract the spec states (§6): a key/value map with all-or-nothing
  transactions.  A transaction is a working copy of the map; commit installs
  it, any early exit discards it.
-/

namespace JotDB

/-- Characters of a string literal (convenience for the embedding). -/
def str (s : String) : List Char := s.toList

/-- Embedding of the Go `interface{}` values this code base produces and
consumes: the shapes handled by `writeJSON` plus `int64`, which the decoder
produces but the encoder does not handle. -/
inductive GoVal : Type where
  | vnull
  | vbool (b : Bool)
  | vint (i : Int)
  | vint64 (i : Int)
  | vfloat (neg : Bool) (mant : Nat) (exp10 : Int)
  | vstr (s : List Char)
  | varr (xs : List GoVal)
  | vobj (kvs : List (List Char × GoVal))

instance : Inhabited GoVal := ⟨.vnull⟩

/-- Marshalling error: the only value shape in `GoVal` that `writeJSON`'s
type switch does not cover is `int64`, so the `default` branch
(`fmt.Errorf("unsupported type: %T", v)`) is reached exactly there. -/
inductive MErr : Type where
  | unsupportedInt64
deriving DecidableEq

/-- Decimal digits of `n`, most significant first (`strconv.Itoa` on `Nat`). -/
def natChars (n : Nat) : List Char := Nat.toDigits 10 n

/-- `strconv.Itoa` / decimal rendering of a Go `int`. -/
def intChars (i : Int) : List Char :=
  if i < 0 then '-' :: natChars i.natAbs else natChars i.natAbs

/-- Lowercase hex digits of `n`, most significant first. -/
def hexChars (n : Nat) : List Char := Nat.toDigits 16 n

/-- `fmt.Fprintf(buf, "\u%04x", r)`: lowercase hex, zero padded to at least
four digits — wider when the value needs more digits (the source of the
round-trip failure at U+10FFFF, which prints six digits). -/
def hexPad4 (n : Nat) : List Char :=
  let h := hexChars n
  List.replicate (4 - h.length) '0' ++ h

/-- One character of `escapeString`'s per-rune switch. -/
def escChar (r : Char) : List Char :=
  if r = '"' then ['\\', '"']
  else if r = '\\' then ['\\', '\\']
  else if r = '\x08' then ['\\', 'b']
  else if r = '\x0c' then ['\\', 'f']
  else if r = '\n' then ['\\', 'n']
  else if r = '\r' then ['\\', 'r']
  else if r = '\t' then ['\\', 't']
  else if r.toNat < 32 ∨ r.toNat ≥ 0x10FFFF ∨ r.toNat = 0x2028 ∨ r.toNat = 0x2029 then
    '\\' :: 'u' :: hexPad4 r.toNat
  else [r]

/-- The escaped body of a string, rune by rune. -/
def escBody : List Char → List Char
  | [] => []
  | c :: cs => escChar c ++ escBody cs

/-- `escapeString`: quote, escaped body, quote. -/
def escapeString (s : List Char) : List Char :=
  '"' :: escBody s ++ ['"']

/-- Rendering of the decimal-component float model in the style of
`strconv.FormatFloat(val, 'f', -1, 64)` (fixed point, no exponent).
Approximate: binary64 shortest-round-trip digit selection is not modelled;
no theorem depends on this rendering. -/
def formatFloatF (neg : Bool) (mant : Nat) (exp10 : Int) : List Char :=
  let sign : List Char := if neg then ['-'] else []
  if 0 ≤ exp10 then
    sign ++ natChars mant ++ List.replicate exp10.toNat '0'
  else
    let ds := natChars mant
    let k := (-exp10).toNat
    if ds.length ≤ k then
      sign ++ str "0." ++ List.replicate (k - ds.length) '0' ++ ds
    else
      sign ++ ds.take (ds.length - k) ++ '.' :: ds.drop (ds.length - k)

mutual
/-- `writeJSON(buf, v)`: the encoder's type switch.  Cases in source order:
`nil`, `string`, `float64`, `int`, `bool`, `map[string]interface{}`,
`[]interface{}`; everything else (here: `int64`) hits the `default`
branch and fails.  Objects are iterated in the model's list order (Go map
iteration order is arbitrary; no claim depends on it). -/
def writeJSON : GoVal → Except MErr (List Char)
  | .vnull => .ok (str "null")
  | .vstr s => .ok (escapeString s)
  | .vfloat neg m e => .ok (formatFloatF neg m e)
  | .vint i => .ok (intChars i)
  | .vbool b => .ok (if b then str "true" else str "false")
  | .vobj kvs =>
    match writeObjBody kvs with
    | .ok body => .ok ('{' :: body ++ ['}'])
    | .error e => .error e
  | .varr xs =>
    match writeArrBody xs with
    | .ok body => .ok ('[' :: body ++ [']'])
    | .error e => .error e
  | .vint64 _ => .error .unsupportedInt64

/-- Comma-separated `"key":value` pairs of an object body. -/
def writeObjBody : List (List Char × GoVal) → Except MErr (List Char)
  | [] => .ok []
  | (k, v) :: rest =>
    match writeJSON v with
    | .error e => .error e
    | .ok ev =>
      match writeObjBody rest with
      | .error e => .error e
      | .ok erest =>
        .ok (escapeString k ++ ':' :: ev ++ (if rest.isEmpty then [] else ',' :: erest))

/-- Comma-separated values of an array body. -/
def writeArrBody : List GoVal → Except MErr (List Char)
  | [] => .ok []
  | v :: rest =>
    match writeJSON v with
    | .error e => .error e
    | .ok ev =>
      match writeArrBody rest with
      | .error e => .error e
      | .ok erest => .ok (ev ++ (if rest.isEmpty then [] else ',' :: erest))
end

/-- `marshalJSON`: run the writer on an empty buffer. -/
def marshalJSON (v : GoVal) : Except MErr (List Char) := writeJSON v

mutual
/-- Whether a value contains a Go `int64` anywhere (at the top, as an array
element, or as an object field value, recursively). -/
def hasInt64 : GoVal → Bool
  | .vint64 _ => true
  | .varr xs => hasInt64Arr xs
  | .vobj kvs => hasInt64Obj kvs
  | _ => false

def hasInt64Arr : List GoVal → Bool
  | [] => false
  | v :: rest => hasInt64 v || hasInt64Arr rest

def hasInt64Obj : List (List Char × GoVal) → Bool
  | [] => false
  | (_, v) :: rest => hasInt64 v || hasInt64Obj rest
end

/-! ## The decoder: `jsonParser` from `json_unmarshal.go` -/

/-- The parser's error values (each Go `errors.New` / `fmt.Errorf` message is
one constructor, carrying the data the message interpolates: the byte offset
and, for number errors, the offending literal). -/
inductive PErr : Type where
  | emptyInput
  | invalidJSON (pos : Nat)
  | expectedKey (pos : Nat)
  | expectedColon (pos : Nat)
  | expectedCommaOrBrace (pos : Nat)
  | expectedCommaOrBracket (pos : Nat)
  | unclosedObject (pos : Nat)
  | unclosedArray (pos : Nat)
  | incompleteEscape
  | incompleteUnicode
  | invalidHexEscape
  | invalidEscape (pos : Nat)
  | unclosedString
  | invalidNumber (pos : Nat) (lit : List Char)
  | invalidInteger (pos : Nat) (lit : List Char)
deriving DecidableEq

/-- Outcome of a parsing function: success (with the value, the updated
`p.pos` and the remaining input), a returned error, a Go runtime panic
(`crash`: the unguarded `p.data[p.pos]` index), or fuel exhaustion
(model artifact; unreachable at the budgets used below). -/
inductive PRes (α : Type) : Type where
  | ok (a : α) (pos : Nat) (rem : List Char)
  | err (e : PErr)
  | crash
  | fuelOut

/-- `p.skipWhitespace()`: space, LF, CR, TAB. -/
def isWhite (c : Char) : Bool := c = ' ' || c = '\n' || c = '\r' || c = '\t'

/-- Skip whitespace, returning the new position and remaining input. -/
def skipWhitespace : Nat → List Char → Nat × List Char
  | pos, c :: rest => if isWhite c then skipWhitespace (pos + 1) rest else (pos, c :: rest)
  | pos, [] => (pos, [])

def isDigitCh (c : Char) : Bool := '0' ≤ c && c ≤ '9'

/-- Hex digit value, as accepted by `strconv.ParseUint(s, 16, 32)`. -/
def hexVal (c : Char) : Option Nat :=
  if '0' ≤ c ∧ c ≤ '9' then some (c.toNat - '0'.toNat)
  else if 'a' ≤ c ∧ c ≤ 'f' then some (c.toNat - 'a'.toNat + 10)
  else if 'A' ≤ c ∧ c ≤ 'F' then some (c.toNat - 'A'.toNat + 10)
  else none

/-- `strconv.ParseUint(string(4 hex chars), 16, 32)`. -/
def parseHex4 : List Char → Option Nat
  | [a, b, c, d] =>
    match hexVal a, hexVal b, hexVal c, hexVal d with
    | some va, some vb, some vc, some vd => some (((va * 16 + vb) * 16 + vc) * 16 + vd)
    | _, _, _, _ => none
  | _ => none

/-- `sb.WriteRune(rune(code))` for `code ≤ 0xFFFF`: an invalid rune (a UTF-16
surrogate code point) is written as U+FFFD, anything else verbatim. -/
def writeRuneChar (code : Nat) : Char :=
  if 0xD800 ≤ code ∧ code ≤ 0xDFFF then '�' else Char.ofNat code

/-- The scanning loop of `parseString` (after the opening quote). -/
def strLoop (acc : List Char) (pos : Nat) (rem : List Char) : PRes (List Char) :=
  match rem with
  | [] => .err .unclosedString
  | c :: rest =>
    if c = '"' then .ok acc (pos + 1) rest
    else if c = '\\' then
      match rest with
      | [] => .err .incompleteEscape
      | e :: rest2 =>
        if e = '"' ∨ e = '\\' ∨ e = '/' then strLoop (acc ++ [e]) (pos + 2) rest2
        else if e = 'b' then strLoop (acc ++ ['\x08']) (pos + 2) rest2
        else if e = 'f' then strLoop (acc ++ ['\x0c']) (pos + 2) rest2
        else if e = 'n' then strLoop (acc ++ ['\n']) (pos + 2) rest2
        else if e = 'r' then strLoop (acc ++ ['\r']) (pos + 2) rest2
        else if e = 't' then strLoop (acc ++ ['\t']) (pos + 2) rest2
        else if e = 'u' then
          match rest2 with
          | a :: b :: c2 :: d :: rest3 =>
            match parseHex4 [a, b, c2, d] with
            | none => .err .invalidHexEscape
            | some code => strLoop (acc ++ [writeRuneChar code]) (pos + 6) rest3
          | _ => .err .incompleteUnicode
        else .err (.invalidEscape (pos + 1))
    else strLoop (acc ++ [c]) (pos + 1) rest
termination_by structural rem

/-- `p.parseString()`: called with the opening quote at the current
position; consumes it and scans.  (On empty remaining input the Go loop body
never runs and the end-of-input check reports an unclosed string.) -/
def parseString (pos : Nat) (rem : List Char) : PRes (List Char) :=
  match rem with
  | [] => .err .unclosedString
  | _ :: rest => strLoop [] (pos + 1) rest

/-! ### Number literals: `parseNumber`, `strconv.ParseInt`, `strconv.ParseFloat` -/

/-- The characters `parseNumber` scans over (maximal run). -/
def isNumChar (c : Char) : Bool :=
  c = '-' || c = '.' || c = 'e' || c = 'E' || c = '+' || ('0' ≤ c && c ≤ '9')

def natOfDigits (ds : List Char) : Nat :=
  ds.foldl (fun a c => a * 10 + (c.toNat - '0'.toNat)) 0

/-- The decimal value of a nonempty all-digit run, `none` otherwise. -/
def digitsVal (ds : List Char) : Option Nat :=
  if ds.isEmpty then none
  else if ds.all isDigitCh then some (natOfDigits ds) else none

def maxInt64 : Nat := 2 ^ 63 - 1

/-- `strconv.ParseInt(s, 10, 64)`: optional sign, nonempty digit run, value
within the signed 64-bit range; every failure (syntax or range) is `none`
(the caller wraps any error the same way). -/
def goParseInt (s : List Char) : Option Int :=
  match s with
  | '+' :: rest => (digitsVal rest).bind fun n => if n ≤ maxInt64 then some (n : Int) else none
  | '-' :: rest =>
    (digitsVal rest).bind fun n => if n ≤ maxInt64 + 1 then some (-(n : Int)) else none
  | _ => (digitsVal s).bind fun n => if n ≤ maxInt64 then some (n : Int) else none

def spanDigits (s : List Char) : List Char × List Char :=
  (s.takeWhile isDigitCh, s.dropWhile isDigitCh)

/-- Smallest decimal magnitude that `strconv.ParseFloat` rejects with
`ErrRange`: the midpoint between the largest finite binary64 value and
2^1024 (ties round to even, i.e. to infinity). -/
def f64Boundary : Nat := 2 ^ 1024 - 2 ^ 970

/-- Whether `mant × 10^exp10` overflows binary64 (→ `ParseFloat` range error). -/
def decOverflow (m : Nat) (e : Int) : Bool :=
  if m = 0 then false
  else
    let nd : Int := (natChars m).length
    let lead : Int := nd + e
    if 311 ≤ lead then true
    else if lead ≤ 308 then false
    else if 0 ≤ e then decide (f64Boundary ≤ m * 10 ^ e.toNat)
    else decide (f64Boundary * 10 ^ (-e).toNat ≤ m)

/-- `strconv.ParseFloat(s, 64)` restricted to the decimal grammar (the only
forms reachable from `parseNumber`'s scan set): optional sign, digits with
at most one dot (at least one digit overall), optional exponent part with
nonempty digits, full input consumed.  The result is the literal's exact
decimal components (`neg`, `mant`, `exp10`); binary64 rounding is not
modelled, but the overflow range error is. -/
def goParseFloat (s : List Char) : Option (Bool × Nat × Int) :=
  let sgn : Bool × List Char :=
    match s with
    | '-' :: r => (true, r)
    | '+' :: r => (false, r)
    | _ => (false, s)
  let neg := sgn.1
  let ipart := spanDigits sgn.2
  let fr : List Char × List Char :=
    match ipart.2 with
    | '.' :: r => spanDigits r
    | _ => ([], ipart.2)
  if ipart.1.isEmpty ∧ fr.1.isEmpty then none
  else
    let mant := natOfDigits (ipart.1 ++ fr.1)
    let fexp : Int := fr.1.length
    match fr.2 with
    | [] => if decOverflow mant (-fexp) then none else some (neg, mant, -fexp)
    | e :: r =>
      if e = 'e' ∨ e = 'E' then
        let esgn : Bool × List Char :=
          match r with
          | '-' :: rr => (true, rr)
          | '+' :: rr => (false, rr)
          | _ => (false, r)
        let eds := spanDigits esgn.2
        if eds.1.isEmpty ∨ ¬ eds.2.isEmpty then none
        else
          let ev : Int := if esgn.1 then -(natOfDigits eds.1 : Int) else (natOfDigits eds.1 : Int)
          if decOverflow mant (ev - fexp) then none else some (neg, mant, ev - fexp)
      else none

/-- The `strings.Contains(numStr, ".")`/`"e"`/`"E"` disjunction deciding
between the float and the integer conversion. -/
def hasFloatMark (lit : List Char) : Bool :=
  lit.any (fun c => c = '.' || c = 'e' || c = 'E')

/-- `p.parseNumber()`: scan the maximal `[0-9eE+-.]` run; a run containing
`.`, `e` or `E` goes through `ParseFloat`, anything else through
`ParseInt`; either failure is a returned error naming the literal and the
start offset. -/
def parseNumber (pos : Nat) (rem : List Char) : PRes GoVal :=
  let lit := rem.takeWhile isNumChar
  if hasFloatMark lit then
    match goParseFloat lit with
    | some (neg, m, e) => .ok (.vfloat neg m e) (pos + lit.length) (rem.drop lit.length)
    | none => .err (.invalidNumber pos lit)
  else
    match goParseInt lit with
    | some i => .ok (.vint64 i) (pos + lit.length) (rem.drop lit.length)
    | none => .err (.invalidInteger pos lit)

/-- `obj[key] = value` on the insertion-ordered association list that models
the Go map (a duplicate key overwrites in place). -/
def insertKV (kvs : List (List Char × GoVal)) (k : List Char) (v : GoVal) :
    List (List Char × GoVal) :=
  match kvs with
  | [] => [(k, v)]
  | (k0, v0) :: rest => if k0 = k then (k, v) :: rest else (k0, v0) :: insertKV rest k v

mutual
/-- `p.parse()`: dispatch on the first non-whitespace character; end of
input is the "empty input" error; an unrecognized character, or a
mismatched `true`/`false`/`null` lookahead, is the "invalid JSON" error. -/
def parse (fuel : Nat) (pos : Nat) (rem : List Char) : PRes GoVal :=
  match fuel with
  | 0 => .fuelOut
  | fuel + 1 =>
    let s := skipWhitespace pos rem
    match s.2 with
    | [] => .err .emptyInput
    | c :: _ =>
      if c = '{' then parseObject fuel s.1 s.2
      else if c = '[' then parseArray fuel s.1 s.2
      else if c = '"' then
        match parseString s.1 s.2 with
        | .ok a p r => .ok (.vstr a) p r
        | .err e => .err e
        | .crash => .crash
        | .fuelOut => .fuelOut
      else if c = 't' then
        if s.2.take 4 = str "true" then .ok (.vbool true) (s.1 + 4) (s.2.drop 4)
        else .err (.invalidJSON s.1)
      else if c = 'f' then
        if s.2.take 5 = str "false" then .ok (.vbool false) (s.1 + 5) (s.2.drop 5)
        else .err (.invalidJSON s.1)
      else if c = 'n' then
        if s.2.take 4 = str "null" then .ok .vnull (s.1 + 4) (s.2.drop 4)
        else .err (.invalidJSON s.1)
      else if c = '-' ∨ isDigitCh c then parseNumber s.1 s.2
      else .err (.invalidJSON s.1)
termination_by structural fuel

/-- `p.parseObject()`: consume `{`, skip whitespace, handle the empty
object, then enter the member loop. -/
def parseObject (fuel : Nat) (pos : Nat) (rem : List Char) : PRes GoVal :=
  match fuel with
  | 0 => .fuelOut
  | fuel + 1 =>
    match rem with
    | [] => .crash
    | _ :: rest =>
      let s := skipWhitespace (pos + 1) rest
      match s.2 with
      | '}' :: r2 => .ok (.vobj []) (s.1 + 1) r2
      | _ => objLoop fuel [] s.1 s.2
termination_by structural fuel

/-- The `for p.pos < p.total` member loop of `parseObject`.  The loop body
indexes `p.data[p.pos]` right after `skipWhitespace` with no bounds check:
when the remaining input is whitespace only, that is a runtime panic
(`crash`), not an error return. -/
def objLoop (fuel : Nat) (obj : List (List Char × GoVal)) (pos : Nat) (rem : List Char) :
    PRes GoVal :=
  match fuel with
  | 0 => .fuelOut
  | fuel + 1 =>
    match rem with
    | [] => .err (.unclosedObject pos)
    | _ :: _ =>
      let s := skipWhitespace pos rem
      match s.2 with
      | [] => .crash
      | c :: _ =>
        if c ≠ '"' then .err (.expectedKey s.1)
        else
          match parseString s.1 s.2 with
          | .err e => .err e
          | .crash => .crash
          | .fuelOut => .fuelOut
          | .ok key p2 r2 =>
            let s3 := skipWhitespace p2 r2
            match s3.2 with
            | ':' :: r4 =>
              match parse fuel (s3.1 + 1) r4 with
              | .err e => .err e
              | .crash => .crash
              | .fuelOut => .fuelOut
              | .ok value p6 r6 =>
                let s7 := skipWhitespace p6 r6
                match s7.2 with
                | '}' :: r8 => .ok (.vobj (insertKV obj key value)) (s7.1 + 1) r8
                | ',' :: r8 => objLoop fuel (insertKV obj key value) (s7.1 + 1) r8
                | _ => .err (.expectedCommaOrBrace s7.1)
            | _ => .err (.expectedColon s3.1)
termination_by structural fuel

/-- `p.parseArray()`: consume `[`, skip whitespace, handle the empty array,
then enter the element loop. -/
def parseArray (fuel : Nat) (pos : Nat) (rem : List Char) : PRes GoVal :=
  match fuel with
  | 0 => .fuelOut
  | fuel + 1 =>
    match rem with
    | [] => .crash
    | _ :: rest =>
      let s := skipWhitespace (pos + 1) rest
      match s.2 with
      | ']' :: r2 => .ok (.varr []) (s.1 + 1) r2
      | _ => arrLoop fuel [] s.1 s.2
termination_by structural fuel

/-- The `for p.pos < p.total` element loop of `parseArray`. -/
def arrLoop (fuel : Nat) (acc : List GoVal) (pos : Nat) (rem : List Char) : PRes GoVal :=
  match fuel with
  | 0 => .fuelOut
  | fuel + 1 =>
    match rem with
    | [] => .err (.unclosedArray pos)
    | _ :: _ =>
      match parse fuel pos rem with
      | .err e => .err e
      | .crash => .crash
      | .fuelOut => .fuelOut
      | .ok v p1 r1 =>
        let s2 := skipWhitespace p1 r1
        match s2.2 with
        | ']' :: r3 => .ok (.varr (acc ++ [v])) (s2.1 + 1) r3
        | ',' :: r3 =>
          let s4 := skipWhitespace (s2.1 + 1) r3
          arrLoop fuel (acc ++ [v]) s4.1 s4.2
        | _ => .err (.expectedCommaOrBracket s2.1)
termination_by structural fuel
end

/-- Fuel budget for a whole input: ample for the recursion, which burns at
most three units per consumed character. -/
def fuelFor (data : List Char) : Nat := 3 * data.length + 3

/-- Decode error as surfaced by `unmarshalJSON`: a parser error, or the
"expected map, got %T" mismatch for the `*map[string]interface{}` target. -/
inductive DErr : Type where
  | parseFail (e : PErr)
  | notMap
deriving DecidableEq

/-- Result of `unmarshalJSON` (value, returned error, or runtime panic). -/
inductive DRes (α : Type) : Type where
  | ok (a : α)
  | err (e : DErr)
  | crash
  | fuelOut

/-- `unmarshalJSON(data, target)` with a `*interface{}` target: any parsed
value is accepted.  The remaining input after the parsed value is
discarded without any check. -/
def unmarshalAny (data : List Char) : DRes GoVal :=
  match parse (fuelFor data) 0 data with
  | .ok v _ _ => .ok v
  | .err e => .err (.parseFail e)
  | .crash => .crash
  | .fuelOut => .fuelOut

/-- `unmarshalJSON(data, target)` with a `*map[string]interface{}` target:
a non-object value is the "expected map" error. -/
def unmarshalMap (data : List Char) : DRes (List (List Char × GoVal)) :=
  match parse (fuelFor data) 0 data with
  | .ok (.vobj kvs) _ _ => .ok kvs
  | .ok _ _ _ => .err .notMap
  | .err e => .err (.parseFail e)
  | .crash => .crash
  | .fuelOut => .fuelOut

/-! ## Index bucket derivation: `fmt.Sprintf("%v", value)` -/

/-- `%v` rendering of a `float64` (`strconv.FormatFloat(f, 'g', -1, 64)`),
carried over the decimal-component model.  Approximate (`%g` switches to
scientific notation at extreme exponents); no theorem renders a float. -/
def formatFloatG (neg : Bool) (m : Nat) (e : Int) : List Char := formatFloatF neg m e

mutual
/-- `fmt.Sprintf("%v", value)` for the dynamic values a decoded document
field can hold.  Scalars are exact (`nil`, bools, `int`, `int64`,
strings); for composites, `fmt` renders space-separated elements (maps
with sorted keys — modelled here in insertion order; no claim indexes a
composite or float field value, every scenario uses scalars). -/
def fmtV : GoVal → List Char
  | .vnull => str "<nil>"
  | .vbool b => if b then str "true" else str "false"
  | .vint i => intChars i
  | .vint64 i => intChars i
  | .vfloat neg m e => formatFloatG neg m e
  | .vstr s => s
  | .varr xs => '[' :: fmtArr xs ++ [']']
  | .vobj kvs => str "map[" ++ fmtObj kvs ++ [']']

def fmtArr : List GoVal → List Char
  | [] => []
  | [v] => fmtV v
  | v :: rest => fmtV v ++ ' ' :: fmtArr rest

def fmtObj : List (List Char × GoVal) → List Char
  | [] => []
  | [(k, v)] => k ++ ':' :: fmtV v
  | (k, v) :: rest => k ++ ':' :: fmtV v ++ ' ' :: fmtObj rest
end

/-! ## Posting lists: `encoding/json` on `[]string`

The store keeps each posting list as `json.Marshal`-ed `[]string` bytes and
reads it back with `json.Unmarshal`.  Those stdlib functions are modelled
here for exactly that shape: an array of strings (or `null`, which
`Unmarshal` accepts leaving the slice empty). -/

/-- `encoding/json` escaping of one string character (`Marshal` runs with
HTML escaping on): `"`, `\`, the `\n`/`\r`/`\t` short forms, other control
characters, `<`, `>`, `&`, U+2028 and U+2029 as `\u` + 4 lowercase hex. -/
def jescChar (c : Char) : List Char :=
  if c = '"' then ['\\', '"']
  else if c = '\\' then ['\\', '\\']
  else if c = '\n' then ['\\', 'n']
  else if c = '\r' then ['\\', 'r']
  else if c = '\t' then ['\\', 't']
  else if c.toNat < 32 ∨ c = '<' ∨ c = '>' ∨ c = '&' ∨ c.toNat = 0x2028 ∨ c.toNat = 0x2029 then
    '\\' :: 'u' :: hexPad4 c.toNat
  else [c]

def jescBody : List Char → List Char
  | [] => []
  | c :: cs => jescChar c ++ jescBody cs

/-- `json.Marshal` of one string. -/
def jencStr (s : List Char) : List Char := '"' :: jescBody s ++ ['"']

def jencItems : List (List Char) → List Char
  | [] => []
  | [s] => jencStr s
  | s :: rest => jencStr s ++ ',' :: jencItems rest

/-- `json.Marshal` of a non-nil `[]string`. -/
def jencStrList (l : List (List Char)) : List Char := '[' :: jencItems l ++ [']']

/-- `json.Unmarshal` string scanning after the opening quote: named
escapes, `\uXXXX` (a surrogate escape decodes to U+FFFD, which is the
stdlib behavior for a lone surrogate; the recombination of a valid
surrogate *pair* is not modelled — the store only reads back posting lists
this code itself wrote, and `jescChar` never emits a surrogate escape),
and a rejection of raw control characters. -/
def jstrLoop (acc : List Char) (rem : List Char) : Option (List Char × List Char) :=
  match rem with
  | [] => none
  | c :: rest =>
    if c = '"' then some (acc, rest)
    else if c = '\\' then
      match rest with
      | 'u' :: a :: b :: c2 :: d :: rest2 =>
        match parseHex4 [a, b, c2, d] with
        | none => none
        | some code => jstrLoop (acc ++ [writeRuneChar code]) rest2
      | e :: rest2 =>
        if e = '"' ∨ e = '\\' ∨ e = '/' then jstrLoop (acc ++ [e]) rest2
        else if e = 'b' then jstrLoop (acc ++ ['\x08']) rest2
        else if e = 'f' then jstrLoop (acc ++ ['\x0c']) rest2
        else if e = 'n' then jstrLoop (acc ++ ['\n']) rest2
        else if e = 'r' then jstrLoop (acc ++ ['\r']) rest2
        else if e = 't' then jstrLoop (acc ++ ['\t']) rest2
        else none
      | [] => none
    else if c.toNat < 32 then none
    else jstrLoop (acc ++ [c]) rest
termination_by structural rem

/-- The comma-separated string items of a JSON array, positioned at a value
start; fuelled (one unit per item; any fuel above the item count behaves
identically). -/
def jstrItems (fuel : Nat) (acc : List (List Char)) (rem : List Char) :
    Option (List (List Char) × List Char) :=
  match fuel with
  | 0 => none
  | fuel + 1 =>
    match rem with
    | '"' :: rest =>
      match jstrLoop [] rest with
      | none => none
      | some (s, rest2) =>
        match (skipWhitespace 0 rest2).2 with
        | ',' :: rest3 => jstrItems fuel (acc ++ [s]) (skipWhitespace 0 rest3).2
        | ']' :: rest3 => some (acc ++ [s], rest3)
        | _ => none
    | _ => none
termination_by structural fuel

/-- `json.Unmarshal(data, &keyList)` for `keyList : []string`: optional
whitespace, then `null` (slice left empty) or an array of strings, then
only whitespace may remain. -/
def jdecStrList (data : List Char) : Option (List (List Char)) :=
  let rem := (skipWhitespace 0 data).2
  match rem with
  | 'n' :: 'u' :: 'l' :: 'l' :: rest =>
    if (skipWhitespace 0 rest).2.isEmpty then some [] else none
  | '[' :: rest =>
    match (skipWhitespace 0 rest).2 with
    | ']' :: rest2 => if (skipWhitespace 0 rest2).2.isEmpty then some [] else none
    | rest2 =>
      match jstrItems (data.length + 1) [] rest2 with
      | none => none
      | some (items, rest3) =>
        if (skipWhitespace 0 rest3).2.isEmpty then some items else none
  | _ => none

/-! ## The document store: `jotdb.go`

The bitcask backend is modelled by the adapter contract of spec §6: a
key/value map (`DB`).  A transaction is a working copy of the map seen by
`tx.Get`/`tx.Put`/`tx.Delete`; `tx.Commit` installs the copy as the new
state, and any early exit (error return or panic, via the deferred
`tx.Discard`) leaves the original state untouched.  Write operations
therefore return the pair (resulting state, outcome). -/

def DB : Type := List (List Char × List Char)

def dbGet : DB → List Char → Option (List Char)
  | [], _ => none
  | (k, v) :: rest, key => if k = key then some v else dbGet rest key

def dbPut : DB → List Char → List Char → DB
  | [], key, val => [(key, val)]
  | (k, v) :: rest, key, val =>
    if k = key then (key, val) :: rest else (k, v) :: dbPut rest key val

def dbDelete : DB → List Char → DB
  | [], _ => []
  | (k, v) :: rest, key => if k = key then dbDelete rest key else (k, v) :: dbDelete rest key

/-- The store's error values (one constructor per produced error). -/
inductive GoErr : Type where
  | invalidDoc
  | marshal (e : MErr)
  | indexDecode
  | decode (e : DErr)
  | lenMismatch
  | notFound
  | notIndexed
deriving DecidableEq

/-- Operation outcome: success, returned error, runtime panic, or the fuel
artifact of the decoder model. -/
inductive Res (α : Type) : Type where
  | ok (a : α)
  | err (e : GoErr)
  | crash
  | fuelOut
deriving DecidableEq

/-- A decoded document as handed back by Query / BatchRetrieve. -/
abbrev Doc : Type := List (List Char × GoVal)

/-- `"doc:" + key`. -/
def docKey (key : List Char) : List Char := str "doc:" ++ key

/-- `"index:" + field + ":" + valueStr`. -/
def indexKey (field valueStr : List Char) : List Char :=
  str "index:" ++ field ++ ':' :: valueStr

/-- `docMap[field]` on the decoded (or asserted) document map. -/
def lookupField : List (List Char × GoVal) → List Char → Option GoVal
  | [], _ => none
  | (k, v) :: rest, f => if k = f then some v else lookupField rest f

/-- Append `key` to the posting list unless already present (the `found`
scan in `Store`). -/
def appendIfMissing (kl : List (List Char)) (key : List Char) : List (List Char) :=
  if key ∈ kl then kl else kl ++ [key]

/-- The per-field index update loop shared verbatim by `Store` and
`BatchStore` (the Go source duplicates the block; lines 57–93 and
276–312 are identical). -/
def storeFields (fields : List (List Char)) (kvs : Doc) (key : List Char) (tx : DB) : Res DB :=
  match fields with
  | [] => .ok tx
  | f :: fs =>
    match lookupField kvs f with
    | none => storeFields fs kvs key tx
    | some v =>
      let ik := indexKey f (fmtV v)
      match dbGet tx ik with
      | none => storeFields fs kvs key (dbPut tx ik (jencStrList (appendIfMissing [] key)))
      | some cur =>
        match jdecStrList cur with
        | none => .err .indexDecode
        | some kl => storeFields fs kvs key (dbPut tx ik (jencStrList (appendIfMissing kl key)))

/-- The body of `Store` (also one item of `BatchStore`): assert the
document is a map, marshal it, put it under the document key, then update
each configured index. -/
def storeOne (fields : List (List Char)) (tx : DB) (key : List Char) (document : GoVal) :
    Res DB :=
  match document with
  | .vobj kvs =>
    match marshalJSON (.vobj kvs) with
    | .error e => .err (.marshal e)
    | .ok data => storeFields fields kvs key (dbPut tx (docKey key) data)
  | _ => .err .invalidDoc

/-- `Store(key, document)`. -/
def Store (fields : List (List Char)) (db : DB) (key : List Char) (document : GoVal) :
    DB × Res Unit :=
  match storeOne fields db key document with
  | .ok tx => (tx, .ok ())
  | .err e => (db, .err e)
  | .crash => (db, .crash)
  | .fuelOut => (db, .fuelOut)

/-- The per-field posting-list removal loop of `Delete`: an absent posting
list is skipped; a shortened list is written back when non-empty and the
entry is deleted outright when the removal emptied it. -/
def deleteFields (fields : List (List Char)) (kvs : Doc) (key : List Char) (tx : DB) : Res DB :=
  match fields with
  | [] => .ok tx
  | f :: fs =>
    match lookupField kvs f with
    | none => deleteFields fs kvs key tx
    | some v =>
      let ik := indexKey f (fmtV v)
      match dbGet tx ik with
      | none => deleteFields fs kvs key tx
      | some cur =>
        match jdecStrList cur with
        | none => .err .indexDecode
        | some kl =>
          let newList := kl.filter (fun k => k ≠ key)
          if newList.length > 0 then deleteFields fs kvs key (dbPut tx ik (jencStrList newList))
          else deleteFields fs kvs key (dbDelete tx ik)

/-- `Delete(key)`: an absent document commits the empty transaction and
succeeds; otherwise the stored bytes are decoded (as a map) to find the
indexed field values, each posting list is updated, and the document entry
is deleted.  A decode failure (or panic) aborts before any change. -/
def Delete (fields : List (List Char)) (db : DB) (key : List Char) : DB × Res Unit :=
  match dbGet db (docKey key) with
  | none => (db, .ok ())
  | some data =>
    match unmarshalMap data with
    | .err e => (db, .err (.decode e))
    | .crash => (db, .crash)
    | .fuelOut => (db, .fuelOut)
    | .ok kvs =>
      match deleteFields fields kvs key db with
      | .ok tx => (dbDelete tx (docKey key), .ok ())
      | .err e => (db, .err e)
      | .crash => (db, .crash)
      | .fuelOut => (db, .fuelOut)

/-- The document-fetching loop of `Query`: a key whose fetch or decode
fails is skipped silently; a decoder panic propagates. -/
def queryFetch (db : DB) (keys : List (List Char)) (acc : List Doc) : Res (List Doc) :=
  match keys with
  | [] => .ok acc
  | k :: rest =>
    match dbGet db (docKey k) with
    | none => queryFetch db rest acc
    | some docData =>
      match unmarshalMap docData with
      | .ok doc => queryFetch db rest (acc ++ [doc])
      | .err _ => queryFetch db rest acc
      | .crash => .crash
      | .fuelOut => .fuelOut

/-- `Query(field, value)`: reject non-indexed fields; an absent posting
list is the empty result; otherwise decode the posting list and fetch each
listed document, skipping the ones that fail. -/
def Query (fields : List (List Char)) (db : DB) (field : List Char) (value : GoVal) :
    Res (List Doc) :=
  if field ∈ fields then
    match dbGet db (indexKey field (fmtV value)) with
    | none => .ok []
    | some data =>
      match jdecStrList data with
      | none => .err .indexDecode
      | some kl => queryFetch db kl []
  else .err .notIndexed

/-- The item loop of `BatchStore` over one shared transaction. -/
def batchItems (fields : List (List Char)) (tx : DB) :
    List (List Char) → List GoVal → Res DB
  | [], _ => .ok tx
  | _ :: _, [] => .ok tx
  | k :: ks, d :: ds =>
    match storeOne fields tx k d with
    | .ok tx2 => batchItems fields tx2 ks ds
    | .err e => .err e
    | .crash => .crash
    | .fuelOut => .fuelOut

/-- `BatchStore(keys, documents)`: a length mismatch aborts before the
transaction starts; any item failure aborts the whole batch (the single
transaction is discarded). -/
def BatchStore (fields : List (List Char)) (db : DB) (keys : List (List Char))
    (documents : List GoVal) : DB × Res Unit :=
  if keys.length ≠ documents.length then (db, .err .lenMismatch)
  else
    match batchItems fields db keys documents with
    | .ok tx => (tx, .ok ())
    | .err e => (db, .err e)
    | .crash => (db, .crash)
    | .fuelOut => (db, .fuelOut)

/-- The fetch loop of `BatchRetrieve`: a missing key is skipped, but a
decode failure aborts the whole call. -/
def batchFetch (db : DB) (keys : List (List Char)) (acc : List Doc) : Res (List Doc) :=
  match keys with
  | [] => .ok acc
  | k :: rest =>
    match dbGet db (docKey k) with
    | none => batchFetch db rest acc
    | some data =>
      match unmarshalMap data with
      | .ok doc => batchFetch db rest (acc ++ [doc])
      | .err e => .err (.decode e)
      | .crash => .crash
      | .fuelOut => .fuelOut

/-- `BatchRetrieve(keys)`. -/
def BatchRetrieve (db : DB) (keys : List (List Char)) : Res (List Doc) :=
  batchFetch db keys []

/-- `Retrieve(key, target)` with a `*interface{}` target: absent is the
"document not found" error, otherwise the stored bytes are decoded. -/
def Retrieve (db : DB) (key : List Char) : Res GoVal :=
  match dbGet db (docKey key) with
  | none => .err .notFound
  | some data =>
    match unmarshalAny data with
    | .ok v => .ok v
    | .err e => .err (.decode e)
    | .crash => .crash
    | .fuelOut => .fuelOut

/-! ## Scenario states for the index-consistency test (claim C1) -/

/-- The configured indexed fields of the scenario: field `"a"`. -/
def fieldsA : List (List Char) := [str "a"]

/-- The stored document of the scenario, the Go literal
`map[string]interface{}{"a": 5}` (a Go `int`). -/
def doc5 : GoVal := .vobj [(str "a", .vint 5)]

/-- What `Query` hands back for that document: the decoded map, whose
field holds the decoder's `int64`. -/
def decodedDoc5 : Doc := [(str "a", .vint64 5)]

def c1s1 : DB := (Store fieldsA [] (str "k1") doc5).1
def c1s2 : DB := (Store fieldsA c1s1 (str "k2") doc5).1
def c1s3 : DB := (Delete fieldsA c1s2 (str "k1")).1
def c1s4 : DB := (Delete fieldsA c1s3 (str "k2")).1

/-- Mirrors the Go type assertion `document.(map[string]interface{})`. -/
def isObjShape : GoVal → Bool
  | .vobj _ => true
  | _ => false

/-- The documents `Query`'s fetch loop keeps, in posting-list order: the
stored bytes of a listed key must exist and decode to a map; any other
listed key is dropped. -/
def goodDocs (db : DB) (keys : List (List Char)) : List Doc :=
  keys.filterMap fun k =>
    match dbGet db (docKey k) with
    | none => none
    | some bytes =>
      match unmarshalMap bytes with
      | .ok doc => some doc
      | _ => none

/-- No stored document among `keys` makes the decoder panic (or exhaust the
model's fuel). -/
def noCrashB (db : DB) (keys : List (List Char)) : Bool :=
  keys.all fun k =>
    match dbGet db (docKey k) with
    | none => true
    | some bytes =>
      match unmarshalMap bytes with
      | .crash => false
      | .fuelOut => false
      | _ => true

/-- Whether the stored bytes of `k` exist but fail to decode as a map. -/
def decodeFails (db : DB) (k : List Char) : Bool :=
  match dbGet db (docKey k) with
  | none => false
  | some bytes =>
    match unmarshalMap bytes with
    | .err _ => true
    | _ => false

/-- The scenario backend for the C10 witness: the posting list for
`(a, "5")` names `k1` (whose stored bytes are not valid JSON) and `k2`
(a well-formed document), plus a `k3` document that is valid JSON but not
an object. -/
def c10db : DB :=
  [(str "index:a:5", jencStrList [str "k1", str "k2"]),
   (str "doc:k1", str "xyz"),
   (str "doc:k2", ['{', '"', 'a', '"', ':', '5', '}']),
   (str "doc:k3", str "7")]

/-! ## The posting-list invariant (claim C6) -/

/-- Whether a backend key lives in the posting-list namespace. -/
def isIndexEntry (k : List Char) : Bool := (str "index:").isPrefixOf k

/-- No key occurs twice in a posting list. -/
def nodupKeys : List (List Char) → Bool
  | [] => true
  | k :: rest => if k ∈ rest then false else nodupKeys rest

/-- Well-formed posting-list bytes: they decode to a non-empty,
duplicate-free list of document keys. -/
def goodPost (bytes : List Char) : Bool :=
  match jdecStrList bytes with
  | none => false
  | some l => !l.isEmpty && nodupKeys l

/-- The invariant: every posting list present in the backend is non-empty
and names each document key at most once. -/
def indexInv (db : DB) : Bool :=
  db.all fun kv => !(isIndexEntry kv.1) || goodPost kv.2

/-! ## Round trip of the document codec (claim C2)

The repository's own encoder/decoder pair.  The original claim quantifies
over all accepted encoder shapes; it fails (see the counterexample
theorem) on strings containing U+10FFFF, whose `\u%04x` escape prints six
hex digits while the decoder consumes exactly four.  The amended fragment
below (`rtOK`) excludes that single code point (and keeps Integer and
Float out, as the claim itself does for Integer; an integral Float such as
`5.0` prints as `5` and re-decodes as Integer, so Float cannot round-trip
either). -/

/-- Characters whose escape (if any) the decoder undoes exactly: everything
except U+10FFFF. -/
def charOK (c : Char) : Bool := c.toNat ≠ 0x10FFFF

/-- `k` does not occur as a key in the remaining members. -/
def keyNotIn (k : List Char) : List (List Char × GoVal) → Bool
  | [] => true
  | (k2, _) :: rest => (k2 ≠ k) && keyNotIn k rest

mutual
/-- The amended round-trip fragment: Null, Bool, Strings without U+10FFFF,
Arrays and Objects (with duplicate-free keys) of such values. -/
def rtOK : GoVal → Bool
  | .vnull => true
  | .vbool _ => true
  | .vstr s => s.all charOK
  | .varr xs => rtOKArr xs
  | .vobj kvs => rtOKObj kvs
  | _ => false

def rtOKArr : List GoVal → Bool
  | [] => true
  | v :: rest => rtOK v && rtOKArr rest

def rtOKObj : List (List Char × GoVal) → Bool
  | [] => true
  | (k, v) :: rest => k.all charOK && rtOK v && keyNotIn k rest && rtOKObj rest
end

/-! ## Claim theorems -/

/-- C1: with field `"a"` indexed, `Store("k1", {"a": 5})` then
`Store("k2", {"a": 5})` makes `Query("a", 5)` return exactly the documents
of `k1` and `k2` (here in insertion order); after `Delete("k1")` the query
returns exactly the document of `k2`; after `Delete("k2")` as well, the
posting-list entry for `(a, "5")` is absent from the backend state itself
(`dbGet` is `none`), not merely an empty list. -/
theorem index_consistency_scenario :
    (Store fieldsA [] (str "k1") doc5).2 = .ok () ∧
    (Store fieldsA c1s1 (str "k2") doc5).2 = .ok () ∧
    Query fieldsA c1s2 (str "a") (.vint 5) = .ok [decodedDoc5, decodedDoc5] ∧
    (Delete fieldsA c1s2 (str "k1")).2 = .ok () ∧
    Query fieldsA c1s3 (str "a") (.vint 5) = .ok [decodedDoc5] ∧
    (Delete fieldsA c1s3 (str "k2")).2 = .ok () ∧
    dbGet c1s4 (indexKey (str "a") (str "5")) = none :=
  ⟨by rfl, by rfl, by rfl, by rfl, by rfl, by rfl, by rfl⟩

/-- C7 (code bug): the decoder is not total.  On input `{"a":1, ` — an
object with a trailing comma followed by whitespace at end of input — the
member loop of `parseObject` re-reads `p.data[p.pos]` after
`skipWhitespace` without a bounds check and panics with an index out of
range instead of returning the unclosed-object `SyntaxError`. -/
theorem parseObject_trailing_comma_ws_crash :
    unmarshalAny ['{', '"', 'a', '"', ':', '1', ',', ' '] = .crash ∧
    parse (fuelFor ['{', '"', 'a', '"', ':', '1', ',', ' ']) 0
      ['{', '"', 'a', '"', ':', '1', ',', ' '] = .crash :=
  ⟨by rfl, by rfl⟩

/-- C9: the decoder does not require the whole input to be consumed —
`unmarshalJSON` never looks at the parser's final position, so whenever the
parse of a leading prefix succeeds, any trailing bytes are ignored
silently; in particular `1 abc` decodes to the integer `1` and `{} x`
decodes to the empty object. -/
theorem unmarshal_ignores_trailing :
    unmarshalAny (str "1 abc") = .ok (.vint64 1) ∧
    unmarshalAny ['{', '}', ' ', 'x'] = .ok (.vobj []) ∧
    (∀ data v p rem, parse (fuelFor data) 0 data = .ok v p rem → rem ≠ [] →
      unmarshalAny data = .ok v) := by
  refine ⟨by rfl, by rfl, ?_⟩
  intro data v p rem h _
  simp [unmarshalAny, h]

/-- Witness for the hypotheses of `unmarshal_ignores_trailing`: the parse
of `1 abc` stops after `1` with ` abc` unconsumed, and the theorem then
yields the successful decode. -/
theorem unmarshal_ignores_trailing_witness :
    unmarshalAny (str "1 abc") = .ok (.vint64 1) :=
  unmarshal_ignores_trailing.2.2 (str "1 abc") (.vint64 1) 1 (str " abc")
    (by rfl) (by decide)

/-- C5: `Store` fails with the invalid-document error whenever the document
is not Object-shaped, and every `Store` failure of any kind leaves the
backend state unchanged (the transaction is only committed on the fully
successful path). -/
theorem store_rejects_non_object_and_is_atomic :
    (∀ (fields : List (List Char)) (db : DB) (key : List Char) (document : GoVal),
      isObjShape document = false →
      Store fields db key document = (db, .err .invalidDoc)) ∧
    (∀ (fields : List (List Char)) (db : DB) (key : List Char) (document : GoVal),
      (Store fields db key document).2 ≠ .ok () →
      (Store fields db key document).1 = db) := by
  constructor
  · intro fields db key document h
    cases document <;> first | rfl | simp [isObjShape] at h
  · intro fields db key document h
    cases hres : storeOne fields db key document
    · exact absurd (by simp [Store, hres]) h
    · simp [Store, hres]
    · simp [Store, hres]
    · simp [Store, hres]

/-- Witness for `store_rejects_non_object_and_is_atomic` at the concrete
non-object document `5` (a bare integer) in the empty store. -/
theorem store_rejects_non_object_and_is_atomic_witness :
    Store fieldsA [] (str "k") (.vint 5) = ([], .err .invalidDoc) ∧
    (Store fieldsA [] (str "k") (.vint 5)).1 = [] :=
  ⟨store_rejects_non_object_and_is_atomic.1 fieldsA [] (str "k") (.vint 5) (by decide),
   store_rejects_non_object_and_is_atomic.2 fieldsA [] (str "k") (.vint 5) (by decide)⟩

/-- C4: `BatchStore` is all-or-nothing — a length mismatch between the two
input sequences is an error with the state untouched; any outcome other
than success leaves the state exactly as before; and the concrete batch
`(["k1","k2"], [validDoc, 5])` fails on the second item with neither `k1`
nor `k2` retrievable afterwards. -/
theorem batchstore_all_or_nothing :
    (∀ (fields : List (List Char)) (db : DB) (keys : List (List Char))
      (documents : List GoVal), keys.length ≠ documents.length →
      BatchStore fields db keys documents = (db, .err .lenMismatch)) ∧
    (∀ (fields : List (List Char)) (db : DB) (keys : List (List Char))
      (documents : List GoVal),
      (BatchStore fields db keys documents).2 ≠ .ok () →
      (BatchStore fields db keys documents).1 = db) ∧
    BatchStore fieldsA [] [str "k1", str "k2"] [doc5, .vint 5] = ([], .err .invalidDoc) ∧
    Retrieve (BatchStore fieldsA [] [str "k1", str "k2"] [doc5, .vint 5]).1 (str "k1") =
      .err .notFound ∧
    Retrieve (BatchStore fieldsA [] [str "k1", str "k2"] [doc5, .vint 5]).1 (str "k2") =
      .err .notFound := by
  refine ⟨?_, ?_, by rfl, by rfl, by rfl⟩
  · intro fields db keys documents h
    simp [BatchStore, h]
  · intro fields db keys documents h
    by_cases hlen : keys.length = documents.length
    · cases hres : batchItems fields db keys documents
      · exact absurd (by simp [BatchStore, hlen, hres]) h
      · simp [BatchStore, hlen, hres]
      · simp [BatchStore, hlen, hres]
      · simp [BatchStore, hlen, hres]
    · simp [BatchStore, hlen]

/-- Witness for `batchstore_all_or_nothing`: a one-key/zero-document call
is the length-mismatch error, and the concrete failing batch leaves the
empty state unchanged. -/
theorem batchstore_all_or_nothing_witness :
    BatchStore fieldsA [] [str "k1"] [] = ([], .err .lenMismatch) ∧
    (BatchStore fieldsA [] [str "k1", str "k2"] [doc5, .vint 5]).1 = [] :=
  ⟨batchstore_all_or_nothing.1 fieldsA [] [str "k1"] [] (by decide),
   batchstore_all_or_nothing.2.1 fieldsA [] [str "k1", str "k2"] [doc5, .vint 5] (by decide)⟩

mutual
/-- Any value containing an `int64` anywhere fails to encode (the type
switch of `writeJSON` has no `int64` case, and `MErr` has a single
constructor, so the failure is the unsupported-type error). -/
theorem writeJSON_hasInt64 : ∀ v : GoVal, hasInt64 v = true →
    writeJSON v = .error .unsupportedInt64
  | .vint64 _, _ => rfl
  | .vnull, h => by simp [hasInt64] at h
  | .vbool b, h => by simp [hasInt64] at h
  | .vint i, h => by simp [hasInt64] at h
  | .vfloat n m e, h => by simp [hasInt64] at h
  | .vstr s, h => by simp [hasInt64] at h
  | .varr xs, h => by
    have hx : hasInt64Arr xs = true := by simpa [hasInt64] using h
    have := writeArrBody_hasInt64 xs hx
    simp [writeJSON, this]
  | .vobj kvs, h => by
    have hx : hasInt64Obj kvs = true := by simpa [hasInt64] using h
    have := writeObjBody_hasInt64 kvs hx
    simp [writeJSON, this]

theorem writeArrBody_hasInt64 : ∀ xs : List GoVal, hasInt64Arr xs = true →
    writeArrBody xs = .error .unsupportedInt64
  | [], h => by simp [hasInt64Arr] at h
  | v :: rest, h => by
    rcases Bool.or_eq_true_iff.mp (by simpa [hasInt64Arr] using h) with h1 | h2
    · have := writeJSON_hasInt64 v h1
      simp [writeArrBody, this]
    · have hrest := writeArrBody_hasInt64 rest h2
      cases hw : writeJSON v with
      | ok ev => simp [writeArrBody, hw, hrest]
      | error e => cases e; simp [writeArrBody, hw]

theorem writeObjBody_hasInt64 : ∀ kvs : List (List Char × GoVal), hasInt64Obj kvs = true →
    writeObjBody kvs = .error .unsupportedInt64
  | [], h => by simp [hasInt64Obj] at h
  | (k, v) :: rest, h => by
    rcases Bool.or_eq_true_iff.mp (by simpa [hasInt64Obj] using h) with h1 | h2
    · have := writeJSON_hasInt64 v h1
      simp [writeObjBody, this]
    · have hrest := writeObjBody_hasInt64 rest h2
      cases hw : writeJSON v with
      | ok ev => simp [writeObjBody, hw, hrest]
      | error e => cases e; simp [writeObjBody, hw]
end

/-- C3: re-encoding the decoder's 64-bit integers always fails — a bare
`int64`, or any value containing one as an array element or field value,
makes `marshalJSON` return the unsupported-type error; in particular a
freshly decoded integer literal can never be re-encoded. -/
theorem encode_decoded_int64_fails :
    (∀ i : Int, marshalJSON (.vint64 i) = .error .unsupportedInt64) ∧
    (∀ v : GoVal, hasInt64 v = true → marshalJSON v = .error .unsupportedInt64) ∧
    (∀ (data : List Char) (i : Int), unmarshalAny data = .ok (.vint64 i) →
      marshalJSON (.vint64 i) = .error .unsupportedInt64) :=
  ⟨fun _ => rfl, fun v h => writeJSON_hasInt64 v h, fun _ _ _ => rfl⟩

/-- Witness for `encode_decoded_int64_fails`: the document `{"a": 1}` with
a decoded (`int64`) field value fails to encode, and the decoded literal
`1` itself fails to re-encode. -/
theorem encode_decoded_int64_fails_witness :
    marshalJSON (.vobj [(str "a", .vint64 1)]) = .error .unsupportedInt64 ∧
    marshalJSON (.vint64 1) = .error .unsupportedInt64 :=
  ⟨encode_decoded_int64_fails.2.1 (.vobj [(str "a", .vint64 1)]) (by decide),
   encode_decoded_int64_fails.2.2 (str "1") 1 (by rfl)⟩

/-- C8: for every numeric literal the decoder accepts, a scanned run with
none of `.`/`e`/`E` yields the 64-bit signed Integer variant and a run
with one of them yields the Float variant; a run that `ParseInt` rejects
(64-bit overflow or malformed) or that `ParseFloat` rejects is a
`SyntaxError` carrying the offending literal and its offset — concretely,
`9223372036854775808` (one past the largest `int64`) fails that way. -/
theorem parseNumber_classification :
    (∀ (pos : Nat) (rem : List Char) (v : GoVal) (p : Nat) (r : List Char),
      parseNumber pos rem = .ok v p r →
      (hasFloatMark (rem.takeWhile isNumChar) = false → ∃ i, v = .vint64 i) ∧
      (hasFloatMark (rem.takeWhile isNumChar) = true → ∃ neg m e, v = .vfloat neg m e)) ∧
    (∀ (pos : Nat) (rem : List Char),
      hasFloatMark (rem.takeWhile isNumChar) = false →
      goParseInt (rem.takeWhile isNumChar) = none →
      parseNumber pos rem = .err (.invalidInteger pos (rem.takeWhile isNumChar))) ∧
    (∀ (pos : Nat) (rem : List Char),
      hasFloatMark (rem.takeWhile isNumChar) = true →
      goParseFloat (rem.takeWhile isNumChar) = none →
      parseNumber pos rem = .err (.invalidNumber pos (rem.takeWhile isNumChar))) ∧
    parseNumber 0 (str "9223372036854775808") =
      .err (.invalidInteger 0 (str "9223372036854775808")) := by
  refine ⟨?_, ?_, ?_, by rfl⟩
  · intro pos rem v p r h
    simp only [parseNumber] at h
    by_cases hm : hasFloatMark (rem.takeWhile isNumChar) = true
    · rw [if_pos hm] at h
      refine ⟨fun hf => absurd (hf ▸ hm) Bool.false_ne_true, fun _ => ?_⟩
      cases hg : goParseFloat (rem.takeWhile isNumChar) with
      | none => rw [hg] at h; cases h
      | some t =>
        rw [hg] at h
        exact ⟨t.1, t.2.1, t.2.2, by cases h; rfl⟩
    · rw [if_neg hm] at h
      refine ⟨fun _ => ?_, fun ht => absurd ht hm⟩
      cases hg : goParseInt (rem.takeWhile isNumChar) with
      | none => rw [hg] at h; cases h
      | some i => rw [hg] at h; exact ⟨i, by cases h; rfl⟩
  · intro pos rem hmark hint
    simp only [parseNumber, if_neg (hmark ▸ Bool.false_ne_true), hint]
  · intro pos rem hmark hfl
    simp only [parseNumber, if_pos hmark, hfl]

/-- Witness for `parseNumber_classification`: `1.5` decodes to the Float
variant, `12` to the Integer variant, `--1` is the malformed-integer
error and `1..2` the malformed-float error. -/
theorem parseNumber_classification_witness :
    ((hasFloatMark ((str "1.5").takeWhile isNumChar) = false →
        ∃ i, GoVal.vfloat false 15 (-1) = .vint64 i) ∧
      (hasFloatMark ((str "1.5").takeWhile isNumChar) = true →
        ∃ neg m e, GoVal.vfloat false 15 (-1) = .vfloat neg m e)) ∧
    parseNumber 0 (str "--1") = .err (.invalidInteger 0 (str "--1")) ∧
    parseNumber 0 (str "1..2") = .err (.invalidNumber 0 (str "1..2")) :=
  ⟨parseNumber_classification.1 0 (str "1.5") (.vfloat false 15 (-1)) 3 [] (by rfl),
   parseNumber_classification.2.1 0 (str "--1") (by decide) (by decide),
   parseNumber_classification.2.2.1 0 (str "1..2") (by decide) (by decide)⟩

theorem queryFetch_goodDocs (db : DB) (keys : List (List Char)) :
    noCrashB db keys = true →
    ∀ acc, queryFetch db keys acc = .ok (acc ++ goodDocs db keys) := by
  induction keys with
  | nil => intro _ acc; simp [queryFetch, goodDocs]
  | cons k rest ih =>
    intro h acc
    rw [noCrashB, List.all_cons, Bool.and_eq_true] at h
    obtain ⟨hk, hrest⟩ := h
    rw [← noCrashB] at hrest
    cases hdb : dbGet db (docKey k) with
    | none =>
      simp only [queryFetch, goodDocs, List.filterMap_cons, hdb]
      exact ih hrest acc
    | some bytes =>
      rw [hdb] at hk
      have hk2 : (match unmarshalMap bytes with
        | DRes.crash => false
        | DRes.fuelOut => false
        | _ => true) = true := hk
      cases hum : unmarshalMap bytes with
      | ok doc =>
        simp only [queryFetch, goodDocs, List.filterMap_cons, hdb, hum]
        rw [ih hrest (acc ++ [doc]), goodDocs]
        simp
      | err e =>
        simp only [queryFetch, goodDocs, List.filterMap_cons, hdb, hum]
        exact ih hrest acc
      | crash => rw [hum] at hk2; simp at hk2
      | fuelOut => rw [hum] at hk2; simp at hk2

theorem batchFetch_aborts (db : DB) (keys : List (List Char)) :
    noCrashB db keys = true →
    (∃ k ∈ keys, decodeFails db k = true) →
    ∀ acc, ∃ e, batchFetch db keys acc = .err e := by
  induction keys with
  | nil => intro _ hex acc; simp at hex
  | cons k rest ih =>
    intro h hex acc
    rw [noCrashB, List.all_cons, Bool.and_eq_true] at h
    obtain ⟨hk, hrest⟩ := h
    rw [← noCrashB] at hrest
    cases hdb : dbGet db (docKey k) with
    | none =>
      have hex2 : ∃ k2 ∈ rest, decodeFails db k2 = true := by
        obtain ⟨k2, hmem, hbad⟩ := hex
        cases hmem with
        | head => unfold decodeFails at hbad; rw [hdb] at hbad; cases hbad
        | tail _ hm => exact ⟨k2, hm, hbad⟩
      simp only [batchFetch, hdb]
      exact ih hrest hex2 acc
    | some bytes =>
      rw [hdb] at hk
      have hk2 : (match unmarshalMap bytes with
        | DRes.crash => false
        | DRes.fuelOut => false
        | _ => true) = true := hk
      cases hum : unmarshalMap bytes with
      | ok doc =>
        have hex2 : ∃ k2 ∈ rest, decodeFails db k2 = true := by
          obtain ⟨k2, hmem, hbad⟩ := hex
          cases hmem with
          | head =>
            unfold decodeFails at hbad
            rw [hdb] at hbad
            have hbad2 : (match unmarshalMap bytes with
              | DRes.err _ => true
              | _ => false) = true := hbad
            rw [hum] at hbad2
            simp at hbad2
          | tail _ hm => exact ⟨k2, hm, hbad⟩
        simp only [batchFetch, hdb, hum]
        exact ih hrest hex2 (acc ++ [doc])
      | err e =>
        refine ⟨.decode e, ?_⟩
        simp only [batchFetch, hdb, hum]
      | crash => rw [hum] at hk2; simp at hk2
      | fuelOut => rw [hum] at hk2; simp at hk2

/-- C10: `BatchRetrieve` aborts on a decode failure, unlike `Query` — if
any requested key is present in the backend but its stored bytes fail to
decode as a map, `BatchRetrieve` returns an error and no partial result,
whereas `Query` silently drops every listed document whose fetch or decode
fails and still returns the remaining documents (both statements under the
side condition that no stored document panics the decoder). -/
theorem batchretrieve_aborts_query_skips :
    (∀ (db : DB) (keys : List (List Char)), noCrashB db keys = true →
      (∃ k ∈ keys, decodeFails db k = true) →
      ∃ e, BatchRetrieve db keys = .err e) ∧
    (∀ (fields : List (List Char)) (db : DB) (field : List Char) (value : GoVal)
      (data : List Char) (kl : List (List Char)), field ∈ fields →
      dbGet db (indexKey field (fmtV value)) = some data →
      jdecStrList data = some kl →
      noCrashB db kl = true →
      Query fields db field value = .ok (goodDocs db kl)) := by
  constructor
  · intro db keys hnc hex
    exact batchFetch_aborts db keys hnc hex []
  · intro fields db field value data kl hf hget hdec hnc
    unfold Query
    rw [if_pos hf]
    simp only [hget, hdec]
    rw [queryFetch_goodDocs db kl hnc []]
    simp

/-- Witness for `batchretrieve_aborts_query_skips`: over `c10db`,
`BatchRetrieve(["k1","k2"])` errors because `k1`'s bytes do not decode,
while `Query("a", 5)` drops `k1` and returns `k2`'s document. -/
theorem batchretrieve_aborts_query_skips_witness :
    (∃ e, BatchRetrieve c10db [str "k1", str "k2"] = .err e) ∧
    Query fieldsA c10db (str "a") (.vint 5) = .ok (goodDocs c10db [str "k1", str "k2"]) :=
  ⟨batchretrieve_aborts_query_skips.1 c10db [str "k1", str "k2"] (by decide)
      ⟨str "k1", by decide, by decide⟩,
   batchretrieve_aborts_query_skips.2 fieldsA c10db (str "a") (.vint 5)
      (jencStrList [str "k1", str "k2"]) [str "k1", str "k2"]
      (by decide) (by rfl) (by rfl) (by decide)⟩

/-! ## Round trip of the posting-list codec (`encoding/json` on `[]string`) -/

theorem skipWhitespace_not_white (c : Char) (pos : Nat) (rest : List Char)
    (h : isWhite c = false) : skipWhitespace pos (c :: rest) = (pos, c :: rest) := by
  simp [skipWhitespace, h]

/-- The `\u`-escaped code points the posting-list encoder (and the document
encoder, short of U+10FFFF) can emit print as exactly four hex digits that
scan back to the same value. -/
theorem parseHex4_hexPad4 (n : Nat)
    (h : n < 32 ∨ n = 0x26 ∨ n = 0x3c ∨ n = 0x3e ∨ n = 0x2028 ∨ n = 0x2029) :
    (hexPad4 n).length = 4 ∧ parseHex4 (hexPad4 n) = some n := by
  rcases h with h | h | h | h | h | h
  · revert h
    revert n
    decide
  all_goals subst h
  all_goals exact ⟨by decide, by decide⟩

theorem exists_four {l : List Char} (h : l.length = 4) :
    ∃ a b c d, l = [a, b, c, d] := by
  cases l with
  | nil => simp at h
  | cons a t1 => cases t1 with
    | nil => simp at h
    | cons b t2 => cases t2 with
      | nil => simp at h
      | cons c t3 => cases t3 with
        | nil => simp at h
        | cons d t4 => cases t4 with
          | nil => exact ⟨a, b, c, d, rfl⟩
          | cons e t5 => simp at h

theorem writeRuneChar_not_surrogate {n : Nat} (h : n < 0xD800) :
    writeRuneChar n = Char.ofNat n := by
  rw [writeRuneChar, if_neg]
  omega

theorem jstrLoop_quote (acc rest : List Char) :
    jstrLoop acc ('"' :: rest) = some (acc, rest) := by
  rw [jstrLoop.eq_def]; simp

theorem jstrLoop_plain {c : Char} (h1 : ¬ c = '"') (h2 : ¬ c = '\\')
    (h3 : ¬ c.toNat < 32) (acc t : List Char) :
    jstrLoop acc (c :: t) = jstrLoop (acc ++ [c]) t := by
  rw [jstrLoop.eq_def]; simp [h1, h2, h3]

theorem jstrLoop_uescape (a b c2 d : Char) (code : Nat) (acc t : List Char)
    (hparse : parseHex4 [a, b, c2, d] = some code) :
    jstrLoop acc ('\\' :: 'u' :: a :: b :: c2 :: d :: t)
      = jstrLoop (acc ++ [writeRuneChar code]) t := by
  rw [jstrLoop.eq_def]; simp [hparse]

/-- One escaped character scans back to itself. -/
theorem jstrLoop_jescChar (c : Char) (acc t : List Char) :
    jstrLoop acc (jescChar c ++ t) = jstrLoop (acc ++ [c]) t := by
  by_cases h1 : c = '"'
  · subst h1
    rw [show jescChar '"' = ['\\', '"'] from rfl]
    rw [jstrLoop.eq_def]; simp
  by_cases h2 : c = '\\'
  · subst h2
    rw [show jescChar '\\' = ['\\', '\\'] from rfl]
    rw [jstrLoop.eq_def]; simp
  by_cases h3 : c = '\n'
  · subst h3
    rw [show jescChar '\n' = ['\\', 'n'] from rfl]
    rw [jstrLoop.eq_def]; simp
  by_cases h4 : c = '\r'
  · subst h4
    rw [show jescChar '\r' = ['\\', 'r'] from rfl]
    rw [jstrLoop.eq_def]; simp
  by_cases h5 : c = '\t'
  · subst h5
    rw [show jescChar '\t' = ['\\', 't'] from rfl]
    rw [jstrLoop.eq_def]; simp
  by_cases h6 : c.toNat < 32 ∨ c = '<' ∨ c = '>' ∨ c = '&' ∨ c.toNat = 0x2028 ∨ c.toNat = 0x2029
  · have hcodes : c.toNat < 32 ∨ c.toNat = 0x26 ∨ c.toNat = 0x3c ∨ c.toNat = 0x3e ∨
        c.toNat = 0x2028 ∨ c.toNat = 0x2029 := by
      rcases h6 with h | h | h | h | h | h
      · exact Or.inl h
      · exact Or.inr (Or.inr (Or.inl (by subst h; decide)))
      · exact Or.inr (Or.inr (Or.inr (Or.inl (by subst h; decide))))
      · exact Or.inr (Or.inl (by subst h; decide))
      · exact Or.inr (Or.inr (Or.inr (Or.inr (Or.inl h))))
      · exact Or.inr (Or.inr (Or.inr (Or.inr (Or.inr h))))
    obtain ⟨hlen, hparse⟩ := parseHex4_hexPad4 c.toNat hcodes
    obtain ⟨a, b, c2, d, hfour⟩ := exists_four hlen
    rw [jescChar, if_neg h1, if_neg h2, if_neg h3, if_neg h4, if_neg h5, if_pos h6, hfour]
    rw [hfour] at hparse
    have hsur : writeRuneChar c.toNat = Char.ofNat c.toNat :=
      writeRuneChar_not_surrogate (by rcases hcodes with h | h | h | h | h | h <;> omega)
    rw [show ('\\' :: 'u' :: [a, b, c2, d]) ++ t = '\\' :: 'u' :: a :: b :: c2 :: d :: t
      from rfl]
    rw [jstrLoop_uescape a b c2 d c.toNat acc t hparse, hsur, Char.ofNat_toNat]
  · have h32 : ¬ c.toNat < 32 := fun hc => h6 (Or.inl hc)
    have hb : ¬ (c = '\x08') := fun hc => h32 (by subst hc; decide)
    have hf : ¬ (c = '\x0c') := fun hc => h32 (by subst hc; decide)
    rw [jescChar, if_neg h1, if_neg h2, if_neg h3, if_neg h4, if_neg h5, if_neg h6]
    rw [List.singleton_append]
    exact jstrLoop_plain h1 h2 h32 acc t

/-- A whole escaped string body scans back to itself, stopping at the
closing quote. -/
theorem jstrLoop_jescBody : ∀ (s acc rest : List Char),
    jstrLoop acc (jescBody s ++ '"' :: rest) = some (acc ++ s, rest)
  | [], acc, rest => by
    rw [jescBody, List.nil_append]
    rw [jstrLoop_quote]
    simp
  | c :: cs, acc, rest => by
    rw [jescBody, List.append_assoc, jstrLoop_jescChar, jstrLoop_jescBody cs]
    simp

/-- The head of an encoded string is its opening quote (helper shape). -/
theorem jencStr_cons (s : List Char) : jencStr s = '"' :: (jescBody s ++ ['"']) := rfl

theorem length_le_jencItems : ∀ l : List (List Char), l.length ≤ (jencItems l).length
  | [] => by simp [jencItems]
  | [s] => by simp [jencItems, jencStr]
  | s :: s2 :: ls => by
    have ih := length_le_jencItems (s2 :: ls)
    simp only [jencItems, jencStr, List.length_cons, List.length_append]
    simp at ih ⊢
    omega

/-- The item loop of the posting-list decoder undoes the encoder, given
one fuel unit per item. -/
theorem jstrItems_jenc : ∀ (l : List (List Char)) (fuel : Nat) (acc : List (List Char)),
    l ≠ [] → l.length ≤ fuel →
    jstrItems fuel acc (jencItems l ++ [']']) = some (acc ++ l, [])
  | [], _, _, h, _ => absurd rfl h
  | _ :: _, 0, _, _, hlen => by simp at hlen
  | [s], fuel + 1, acc, _, _ => by
    rw [jencItems, jencStr_cons]
    rw [jstrItems.eq_def]
    simp only [List.cons_append, List.append_assoc, List.singleton_append]
    rw [jstrLoop_jescBody]
    simp [skipWhitespace, isWhite]
  | s :: s2 :: ls, fuel + 1, acc, _, hlen => by
    have hhead : jencItems (s2 :: ls) ++ [']'] =
        '"' :: ((jescBody s2 ++ ['"']) ++
          ((if ls.isEmpty then [] else ',' :: jencItems ls) ++ [']'])) := by
      cases ls with
      | nil => simp [jencItems, jencStr_cons]
      | cons s3 ls2 => simp [jencItems, jencStr_cons]
    rw [jencItems, jencStr_cons]
    rw [jstrItems.eq_def]
    simp only [List.cons_append, List.append_assoc, List.singleton_append]
    rw [jstrLoop_jescBody]
    simp only [List.nil_append]
    rw [hhead]
    rw [skipWhitespace_not_white ',' 0
      ('"' :: ((jescBody s2 ++ ['"']) ++
        ((if ls.isEmpty then [] else ',' :: jencItems ls) ++ [']']))) (by decide)]
    show jstrItems fuel (acc ++ [s])
        (skipWhitespace 0
          ('"' :: ((jescBody s2 ++ ['"']) ++
            ((if ls.isEmpty then [] else ',' :: jencItems ls) ++ [']'])))).2
      = some (acc ++ s :: s2 :: ls, [])
    rw [skipWhitespace_not_white '"' 0
      ((jescBody s2 ++ ['"']) ++
        ((if ls.isEmpty then [] else ',' :: jencItems ls) ++ [']'])) (by decide)]
    show jstrItems fuel (acc ++ [s])
        ('"' :: ((jescBody s2 ++ ['"']) ++
          ((if ls.isEmpty then [] else ',' :: jencItems ls) ++ [']'])))
      = some (acc ++ s :: s2 :: ls, [])
    have key := jstrItems_jenc (s2 :: ls) fuel (acc ++ [s]) (List.cons_ne_nil s2 ls)
      (by simp at hlen ⊢; omega)
    rw [← hhead, key]
    simp
    all_goals exact List.cons_ne_nil s2 ls

/-- `json.Unmarshal` undoes `json.Marshal` on every `[]string` posting
list. -/
theorem jdec_jenc (l : List (List Char)) : jdecStrList (jencStrList l) = some l := by
  cases l with
  | nil => rfl
  | cons s ls =>
    have hhead : jencItems (s :: ls) ++ [']'] =
        '"' :: ((jescBody s ++ ['"']) ++
          ((if ls.isEmpty then [] else ',' :: jencItems ls) ++ [']'])) := by
      cases ls with
      | nil => simp [jencItems, jencStr_cons]
      | cons s2 ls2 => simp [jencItems, jencStr_cons]
    rw [jencStrList, jdecStrList]
    simp only [List.cons_append]
    rw [skipWhitespace_not_white '[' 0 (jencItems (s :: ls) ++ [']']) (by decide)]
    show (match (skipWhitespace 0 (jencItems (s :: ls) ++ [']'])).2 with
      | ']' :: rest2 =>
        if (skipWhitespace 0 rest2).2.isEmpty then some ([] : List (List Char)) else none
      | rest2 =>
        match jstrItems (('[' :: (jencItems (s :: ls) ++ [']'])).length + 1) [] rest2 with
        | none => none
        | some (items, rest3) =>
          if (skipWhitespace 0 rest3).2.isEmpty then some items else none)
      = some (s :: ls)
    rw [hhead]
    rw [skipWhitespace_not_white '"' 0
      ((jescBody s ++ ['"']) ++
        ((if ls.isEmpty then [] else ',' :: jencItems ls) ++ [']'])) (by decide)]
    show (match jstrItems
        (('[' :: ('"' :: ((jescBody s ++ ['"']) ++
          ((if ls.isEmpty then [] else ',' :: jencItems ls) ++ [']'])))).length + 1) []
        ('"' :: ((jescBody s ++ ['"']) ++
          ((if ls.isEmpty then [] else ',' :: jencItems ls) ++ [']']))) with
      | none => none
      | some (items, rest3) =>
        if (skipWhitespace 0 rest3).2.isEmpty then some items else none)
      = some (s :: ls)
    rw [← hhead]
    have hfuel : (s :: ls).length ≤ ('[' :: (jencItems (s :: ls) ++ [']'])).length + 1 := by
      have h9 := length_le_jencItems (s :: ls)
      simp only [List.length_cons, List.length_append, List.length_nil] at h9 ⊢
      omega
    rw [jstrItems_jenc (s :: ls) _ [] (List.cons_ne_nil s ls) hfuel]
    simp [skipWhitespace]

theorem isIndexEntry_docKey (key : List Char) : isIndexEntry (docKey key) = false := rfl

theorem isIndexEntry_indexKey (f vs : List Char) : isIndexEntry (indexKey f vs) = true := by
  show (str "index:").isPrefixOf (str "index:" ++ (f ++ ':' :: vs)) = true
  rw [show str "index:" = ['i', 'n', 'd', 'e', 'x', ':'] from by decide]
  simp [List.isPrefixOf]

theorem dbGet_good {db : DB} {k v : List Char} (hinv : indexInv db = true)
    (hget : dbGet db k = some v) (hidx : isIndexEntry k = true) : goodPost v = true := by
  induction db with
  | nil => cases hget
  | cons kv rest ih =>
    obtain ⟨k2, v2⟩ := kv
    rw [indexInv, List.all_cons, Bool.and_eq_true] at hinv
    obtain ⟨h1, h2⟩ := hinv
    rw [dbGet] at hget
    by_cases hk : k2 = k
    · rw [if_pos hk] at hget
      cases hget
      subst hk
      rcases Bool.or_eq_true_iff.mp h1 with h | h
      · rw [hidx] at h; cases h
      · exact h
    · rw [if_neg hk] at hget
      exact ih h2 hget

theorem indexInv_dbPut {db : DB} {k v : List Char} (hinv : indexInv db = true)
    (hv : isIndexEntry k = true → goodPost v = true) : indexInv (dbPut db k v) = true := by
  induction db with
  | nil =>
    rw [dbPut, indexInv, List.all_cons]
    simp only [List.all_nil, Bool.and_true]
    cases hidx : isIndexEntry k with
    | false => simp
    | true => simp [hv hidx]
  | cons kv rest ih =>
    obtain ⟨k2, v2⟩ := kv
    rw [indexInv, List.all_cons, Bool.and_eq_true] at hinv
    obtain ⟨h1, h2⟩ := hinv
    rw [dbPut]
    by_cases hk : k2 = k
    · rw [if_pos hk]
      rw [indexInv, List.all_cons, h2]
      simp only [Bool.and_true]
      cases hidx : isIndexEntry k with
      | false => simp
      | true => simp [hv hidx]
    · rw [if_neg hk]
      rw [indexInv, List.all_cons, Bool.and_eq_true]
      exact ⟨h1, ih h2⟩

theorem indexInv_dbDelete {db : DB} {k : List Char} (hinv : indexInv db = true) :
    indexInv (dbDelete db k) = true := by
  induction db with
  | nil => exact hinv
  | cons kv rest ih =>
    obtain ⟨k2, v2⟩ := kv
    rw [indexInv, List.all_cons, Bool.and_eq_true] at hinv
    obtain ⟨h1, h2⟩ := hinv
    rw [dbDelete]
    by_cases hk : k2 = k
    · rw [if_pos hk]
      exact ih h2
    · rw [if_neg hk]
      rw [indexInv, List.all_cons, Bool.and_eq_true]
      exact ⟨h1, ih h2⟩

theorem nodupKeys_append_fresh {key : List Char} :
    ∀ {kl : List (List Char)}, nodupKeys kl = true → key ∉ kl →
    nodupKeys (kl ++ [key]) = true := by
  intro kl
  induction kl with
  | nil => intro _ _; simp [nodupKeys]
  | cons k0 rest ih =>
    intro hnd hmem
    rw [nodupKeys] at hnd
    by_cases h0 : k0 ∈ rest
    · rw [if_pos h0] at hnd; cases hnd
    · rw [if_neg h0] at hnd
      have hkey : key ∉ rest := fun hc => hmem (List.mem_cons_of_mem _ hc)
      have hne : ¬ k0 = key := fun hc => hmem (by rw [hc]; exact List.mem_cons_self _ _)
      rw [List.cons_append, nodupKeys, if_neg]
      · exact ih hnd hkey
      · intro hc
        rcases List.mem_append.mp hc with hc | hc
        · exact h0 hc
        · exact hne (List.mem_singleton.mp hc)

theorem nodupKeys_appendIfMissing {kl : List (List Char)} {key : List Char}
    (h : nodupKeys kl = true) : nodupKeys (appendIfMissing kl key) = true := by
  rw [appendIfMissing]
  by_cases hk : key ∈ kl
  · rw [if_pos hk]; exact h
  · rw [if_neg hk]; exact nodupKeys_append_fresh h hk

theorem appendIfMissing_not_empty (kl : List (List Char)) (key : List Char) :
    (appendIfMissing kl key).isEmpty = false := by
  rw [appendIfMissing]
  by_cases hk : key ∈ kl
  · rw [if_pos hk]
    cases kl with
    | nil => cases hk
    | cons a l => rfl
  · rw [if_neg hk]
    cases kl <;> rfl

theorem nodupKeys_filter (p : List Char → Bool) :
    ∀ {kl : List (List Char)}, nodupKeys kl = true → nodupKeys (kl.filter p) = true := by
  intro kl
  induction kl with
  | nil => intro _; simp [nodupKeys]
  | cons k0 rest ih =>
    intro hnd
    rw [nodupKeys] at hnd
    by_cases h0 : k0 ∈ rest
    · rw [if_pos h0] at hnd; cases hnd
    · rw [if_neg h0] at hnd
      rw [List.filter_cons]
      cases hp : p k0 with
      | false => simp only [Bool.false_eq_true, if_neg]; exact ih hnd
      | true =>
        simp only [if_pos]
        rw [nodupKeys, if_neg]
        · exact ih hnd
        · intro hc
          exact h0 (List.mem_of_mem_filter hc)

/-- A freshly encoded non-empty duplicate-free posting list is
well-formed. -/
theorem goodPost_jenc {l : List (List Char)} (hne : l.isEmpty = false)
    (hnd : nodupKeys l = true) : goodPost (jencStrList l) = true := by
  rw [goodPost, jdec_jenc]
  simp [hne, hnd]

theorem storeFields_inv (fields : List (List Char)) (kvs : Doc) (key : List Char) :
    ∀ tx tx2, indexInv tx = true → storeFields fields kvs key tx = .ok tx2 →
    indexInv tx2 = true := by
  induction fields with
  | nil =>
    intro tx tx2 hinv h
    rw [storeFields] at h
    cases h
    exact hinv
  | cons f fs ih =>
    intro tx tx2 hinv h
    rw [storeFields] at h
    dsimp only at h
    split at h
    · exact ih tx tx2 hinv h
    · rename_i v hlf
      split at h
      · rename_i hget
        refine ih _ tx2 (indexInv_dbPut hinv fun _ => ?_) h
        exact goodPost_jenc (appendIfMissing_not_empty [] key)
          (nodupKeys_appendIfMissing (by rfl))
      · rename_i cur hget
        split at h
        · cases h
        · rename_i kl hdec
          have hgood := dbGet_good hinv hget (isIndexEntry_indexKey f (fmtV v))
          rw [goodPost, hdec, Bool.and_eq_true] at hgood
          refine ih _ tx2 (indexInv_dbPut hinv fun _ => ?_) h
          exact goodPost_jenc (appendIfMissing_not_empty kl key)
            (nodupKeys_appendIfMissing hgood.2)

theorem storeOne_inv {fields : List (List Char)} {tx : DB} {key : List Char}
    {document : GoVal} {tx2 : DB} (hinv : indexInv tx = true)
    (h : storeOne fields tx key document = .ok tx2) : indexInv tx2 = true := by
  cases document with
  | vobj kvs =>
    rw [storeOne] at h
    cases hm : marshalJSON (.vobj kvs) with
    | error e => rw [hm] at h; cases h
    | ok data =>
      rw [hm] at h
      refine storeFields_inv fields kvs key _ tx2 (indexInv_dbPut hinv fun hidx => ?_) h
      exact absurd (isIndexEntry_docKey key ▸ hidx) Bool.false_ne_true
  | vnull => cases h
  | vbool b => cases h
  | vint i => cases h
  | vint64 i => cases h
  | vfloat a b c => cases h
  | vstr s => cases h
  | varr xs => cases h

theorem deleteFields_inv (fields : List (List Char)) (kvs : Doc) (key : List Char) :
    ∀ tx tx2, indexInv tx = true → deleteFields fields kvs key tx = .ok tx2 →
    indexInv tx2 = true := by
  induction fields with
  | nil =>
    intro tx tx2 hinv h
    rw [deleteFields] at h
    cases h
    exact hinv
  | cons f fs ih =>
    intro tx tx2 hinv h
    rw [deleteFields] at h
    dsimp only at h
    split at h
    · exact ih tx tx2 hinv h
    · rename_i v hlf
      split at h
      · rename_i hget
        exact ih tx tx2 hinv h
      · rename_i cur hget
        split at h
        · cases h
        · rename_i kl hdec
          have hgood := dbGet_good hinv hget (isIndexEntry_indexKey f (fmtV v))
          rw [goodPost, hdec, Bool.and_eq_true] at hgood
          by_cases hlen : (kl.filter fun k => k ≠ key).length > 0
          · rw [if_pos hlen] at h
            refine ih _ tx2 (indexInv_dbPut hinv fun _ => ?_) h
            refine goodPost_jenc ?_ (nodupKeys_filter _ hgood.2)
            cases hfl : kl.filter fun k => k ≠ key with
            | nil => rw [hfl] at hlen; simp at hlen
            | cons a l => rfl
          · rw [if_neg hlen] at h
            exact ih _ tx2 (indexInv_dbDelete hinv) h

theorem batchItems_inv (fields : List (List Char)) :
    ∀ (keys : List (List Char)) (documents : List GoVal) (tx tx2 : DB),
    indexInv tx = true → batchItems fields tx keys documents = .ok tx2 →
    indexInv tx2 = true := by
  intro keys
  induction keys with
  | nil =>
    intro documents tx tx2 hinv h
    rw [batchItems] at h
    cases h
    exact hinv
  | cons k ks ih =>
    intro documents tx tx2 hinv h
    cases documents with
    | nil =>
      rw [batchItems] at h
      cases h
      exact hinv
    | cons d ds =>
      rw [batchItems] at h
      cases hs : storeOne fields tx k d with
      | ok tx3 =>
        rw [hs] at h
        exact ih ds tx3 tx2 (storeOne_inv hinv hs) h
      | err e => rw [hs] at h; cases h
      | crash => rw [hs] at h; cases h
      | fuelOut => rw [hs] at h; cases h

/-- C6: the posting-list invariant — every posting list present in the
backend is non-empty and contains each document key at most once — is
preserved by every successful `Store`, `Delete` and `BatchStore`
(re-storing a key under the same pairing does not duplicate its posting,
and an entry whose list would become empty is deleted, never written
empty). -/
theorem posting_list_invariant_preserved :
    (∀ (fields : List (List Char)) (db : DB) (key : List Char) (document : GoVal) (db2 : DB),
      indexInv db = true → Store fields db key document = (db2, .ok ()) →
      indexInv db2 = true) ∧
    (∀ (fields : List (List Char)) (db : DB) (key : List Char) (db2 : DB),
      indexInv db = true → Delete fields db key = (db2, .ok ()) →
      indexInv db2 = true) ∧
    (∀ (fields : List (List Char)) (db : DB) (keys : List (List Char))
      (documents : List GoVal) (db2 : DB),
      indexInv db = true → BatchStore fields db keys documents = (db2, .ok ()) →
      indexInv db2 = true) := by
  refine ⟨?_, ?_, ?_⟩
  · intro fields db key document db2 hinv h
    rw [Store] at h
    cases hs : storeOne fields db key document with
    | ok tx =>
      rw [hs] at h
      cases h
      exact storeOne_inv hinv hs
    | err e => rw [hs] at h; cases h
    | crash => rw [hs] at h; cases h
    | fuelOut => rw [hs] at h; cases h
  · intro fields db key db2 hinv h
    rw [Delete] at h
    split at h
    · cases h
      exact hinv
    · split at h
      · cases h
      · cases h
      · cases h
      · rename_i data hget kvs hum
        split at h
        · rename_i tx hdf
          cases h
          exact indexInv_dbDelete (deleteFields_inv fields kvs key db _ hinv hdf)
        · cases h
        · cases h
        · cases h
  · intro fields db keys documents db2 hinv h
    rw [BatchStore] at h
    by_cases hlen : keys.length = documents.length
    · rw [if_neg (by simp [hlen])] at h
      cases hb : batchItems fields db keys documents with
      | ok tx =>
        rw [hb] at h
        cases h
        exact batchItems_inv fields keys documents db _ hinv hb
      | err e => rw [hb] at h; cases h
      | crash => rw [hb] at h; cases h
      | fuelOut => rw [hb] at h; cases h
    · rw [if_pos hlen] at h
      cases h

/-- Witness for `posting_list_invariant_preserved`: the invariant holds of
the empty backend and is preserved through the scenario store, a delete,
and a batch that re-stores the same key twice (no duplicated posting). -/
theorem posting_list_invariant_preserved_witness :
    indexInv (Store fieldsA [] (str "k1") doc5).1 = true ∧
    indexInv (Delete fieldsA c1s2 (str "k1")).1 = true ∧
    indexInv (BatchStore fieldsA [] [str "k1", str "k1"] [doc5, doc5]).1 = true :=
  ⟨posting_list_invariant_preserved.1 fieldsA [] (str "k1") doc5
      (Store fieldsA [] (str "k1") doc5).1 (by decide) (by rfl),
   posting_list_invariant_preserved.2.1 fieldsA c1s2 (str "k1")
      (Delete fieldsA c1s2 (str "k1")).1 (by decide) (by rfl),
   posting_list_invariant_preserved.2.2 fieldsA [] [str "k1", str "k1"] [doc5, doc5]
      (BatchStore fieldsA [] [str "k1", str "k1"] [doc5, doc5]).1 (by decide) (by rfl)⟩

theorem strLoop_quote (acc : List Char) (pos : Nat) (rest : List Char) :
    strLoop acc pos ('"' :: rest) = .ok acc (pos + 1) rest := by
  rw [strLoop.eq_def]; simp

theorem strLoop_plain {c : Char} (h1 : ¬ c = '"') (h2 : ¬ c = '\\')
    (acc : List Char) (pos : Nat) (t : List Char) :
    strLoop acc pos (c :: t) = strLoop (acc ++ [c]) (pos + 1) t := by
  rw [strLoop.eq_def]; simp [h1, h2]

theorem strLoop_uescape (a b c2 d : Char) (code : Nat) (acc : List Char) (pos : Nat)
    (t : List Char) (hparse : parseHex4 [a, b, c2, d] = some code) :
    strLoop acc pos ('\\' :: 'u' :: a :: b :: c2 :: d :: t)
      = strLoop (acc ++ [writeRuneChar code]) (pos + 6) t := by
  rw [strLoop.eq_def]; simp [hparse]

/-- One character escaped by the document encoder scans back to itself,
advancing the position by the escape's width. -/
theorem strLoop_escChar (c : Char) (hok : charOK c = true) (acc : List Char) (pos : Nat)
    (t : List Char) :
    strLoop acc pos (escChar c ++ t) = strLoop (acc ++ [c]) (pos + (escChar c).length) t := by
  by_cases h1 : c = '"'
  · subst h1
    rw [show escChar '"' = ['\\', '"'] from rfl]
    rw [strLoop.eq_def]; simp
  by_cases h2 : c = '\\'
  · subst h2
    rw [show escChar '\\' = ['\\', '\\'] from rfl]
    rw [strLoop.eq_def]; simp
  by_cases hb : c = '\x08'
  · subst hb
    rw [show escChar '\x08' = ['\\', 'b'] from rfl]
    rw [strLoop.eq_def]; simp
  by_cases hf : c = '\x0c'
  · subst hf
    rw [show escChar '\x0c' = ['\\', 'f'] from rfl]
    rw [strLoop.eq_def]; simp
  by_cases h3 : c = '\n'
  · subst h3
    rw [show escChar '\n' = ['\\', 'n'] from rfl]
    rw [strLoop.eq_def]; simp
  by_cases h4 : c = '\r'
  · subst h4
    rw [show escChar '\r' = ['\\', 'r'] from rfl]
    rw [strLoop.eq_def]; simp
  by_cases h5 : c = '\t'
  · subst h5
    rw [show escChar '\t' = ['\\', 't'] from rfl]
    rw [strLoop.eq_def]; simp
  by_cases h6 : c.toNat < 32 ∨ c.toNat ≥ 0x10FFFF ∨ c.toNat = 0x2028 ∨ c.toNat = 0x2029
  · have hne : c.toNat ≠ 0x10FFFF := by simpa [charOK] using hok
    have hval : c.toNat < 0xd800 ∨ (0xdfff < c.toNat ∧ c.toNat < 0x110000) := c.valid
    have hcodes : c.toNat < 32 ∨ c.toNat = 0x26 ∨ c.toNat = 0x3c ∨ c.toNat = 0x3e ∨
        c.toNat = 0x2028 ∨ c.toNat = 0x2029 := by
      rcases h6 with h | h | h | h
      · exact Or.inl h
      · exfalso
        rcases hval with hv | ⟨_, hv⟩ <;> omega
      · exact Or.inr (Or.inr (Or.inr (Or.inr (Or.inl h))))
      · exact Or.inr (Or.inr (Or.inr (Or.inr (Or.inr h))))
    obtain ⟨hlen, hparse⟩ := parseHex4_hexPad4 c.toNat hcodes
    obtain ⟨a, b, c2, d, hfour⟩ := exists_four hlen
    rw [escChar, if_neg h1, if_neg h2, if_neg hb, if_neg hf, if_neg h3, if_neg h4, if_neg h5,
      if_pos h6, hfour]
    rw [hfour] at hparse
    rw [show ('\\' :: 'u' :: [a, b, c2, d]) ++ t = '\\' :: 'u' :: a :: b :: c2 :: d :: t
      from rfl]
    rw [strLoop_uescape a b c2 d c.toNat acc pos t hparse]
    have hsur : writeRuneChar c.toNat = Char.ofNat c.toNat :=
      writeRuneChar_not_surrogate (by rcases hcodes with h | h | h | h | h | h <;> omega)
    rw [hsur, Char.ofNat_toNat]
    rfl
  · have h32 : ¬ c.toNat < 32 := fun hc => h6 (Or.inl hc)
    rw [escChar, if_neg h1, if_neg h2, if_neg hb, if_neg hf, if_neg h3, if_neg h4, if_neg h5,
      if_neg h6]
    rw [List.singleton_append]
    rw [strLoop_plain h1 h2]
    rfl

theorem strLoop_escBody : ∀ (s : List Char), s.all charOK = true →
    ∀ (acc : List Char) (pos : Nat) (rest : List Char),
    strLoop acc pos (escBody s ++ '"' :: rest)
      = .ok (acc ++ s) (pos + (escBody s).length + 1) rest
  | [], _, acc, pos, rest => by
    rw [escBody, List.nil_append, strLoop_quote]
    simp
  | c :: cs, hall, acc, pos, rest => by
    rw [List.all_cons, Bool.and_eq_true] at hall
    rw [escBody, List.append_assoc, strLoop_escChar c hall.1,
      strLoop_escBody cs hall.2]
    simp only [List.append_assoc, List.singleton_append, List.length_append]
    congr 1
    omega

theorem parseString_escapeString (s : List Char) (hok : s.all charOK = true) (pos : Nat)
    (rest : List Char) :
    parseString pos (escapeString s ++ rest)
      = .ok s (pos + (escapeString s).length) rest := by
  rw [escapeString]
  rw [show (('"' :: escBody s) ++ ['"']) ++ rest = '"' :: (escBody s ++ '"' :: rest) by simp]
  simp only [parseString]
  rw [strLoop_escBody s hok]
  simp only [List.nil_append, List.length_append, List.length_cons, List.length_nil]
  congr 1
  omega

/-- Every encoding in the round-trip fragment starts with a non-whitespace
character that closes nothing. -/
theorem writeJSON_head {v : GoVal} {enc : List Char} (hok : rtOK v = true)
    (henc : writeJSON v = .ok enc) :
    ∃ c t, enc = c :: t ∧ isWhite c = false ∧ c ≠ ']' ∧ c ≠ '}' := by
  cases v with
  | vnull =>
    cases henc
    exact ⟨'n', str "ull", by decide, by decide, by decide, by decide⟩
  | vbool b =>
    cases b
    · cases henc
      exact ⟨'f', str "alse", by decide, by decide, by decide, by decide⟩
    · cases henc
      exact ⟨'t', str "rue", by decide, by decide, by decide, by decide⟩
  | vstr s =>
    cases henc
    exact ⟨'"', escBody s ++ ['"'], by simp [escapeString], by decide, by decide, by decide⟩
  | varr xs =>
    rw [writeJSON] at henc
    cases hw : writeArrBody xs with
    | ok body =>
      rw [hw] at henc
      cases henc
      exact ⟨'[', body ++ [']'], by simp, by decide, by decide, by decide⟩
    | error e => rw [hw] at henc; cases henc
  | vobj kvs =>
    rw [writeJSON] at henc
    cases hw : writeObjBody kvs with
    | ok body =>
      rw [hw] at henc
      cases henc
      exact ⟨'{', body ++ ['}'], by simp, by decide, by decide, by decide⟩
    | error e => rw [hw] at henc; cases henc
  | vint i => simp [rtOK] at hok
  | vint64 i => simp [rtOK] at hok
  | vfloat a b c => simp [rtOK] at hok

/-- `skipWhitespace` is the identity in front of any encoded value. -/
theorem skipWS_enc {v : GoVal} {enc : List Char} (hok : rtOK v = true)
    (henc : writeJSON v = .ok enc) (pos : Nat) (rest : List Char) :
    skipWhitespace pos (enc ++ rest) = (pos, enc ++ rest) := by
  obtain ⟨c, t, hcons, hw, _, _⟩ := writeJSON_head hok henc
  rw [hcons, List.cons_append]
  exact skipWhitespace_not_white c pos (t ++ rest) hw

/-- Dispatch of `parse` on an opening bracket. -/
theorem parse_lbracket (f pos : Nat) (tail : List Char) :
    parse (f + 1) pos ('[' :: tail) = parseArray f pos ('[' :: tail) := by
  rw [parse.eq_def]
  dsimp only
  rw [skipWhitespace_not_white '[' pos tail (by decide)]
  simp

/-- Dispatch of `parse` on an opening brace. -/
theorem parse_lbrace (f pos : Nat) (tail : List Char) :
    parse (f + 1) pos ('{' :: tail) = parseObject f pos ('{' :: tail) := by
  rw [parse.eq_def]
  dsimp only
  rw [skipWhitespace_not_white '{' pos tail (by decide)]
  simp

theorem parseArray_empty (f pos : Nat) (rest : List Char) :
    parseArray (f + 1) pos ('[' :: (']' :: rest)) = .ok (.varr []) (pos + 2) rest := by
  rw [parseArray.eq_def]
  dsimp only
  rw [skipWhitespace_not_white ']' (pos + 1) rest (by decide)]
  simp [Nat.add_assoc]

theorem parseObject_empty (f pos : Nat) (rest : List Char) :
    parseObject (f + 1) pos ('{' :: ('}' :: rest)) = .ok (.vobj []) (pos + 2) rest := by
  rw [parseObject.eq_def]
  dsimp only
  rw [skipWhitespace_not_white '}' (pos + 1) rest (by decide)]
  simp [Nat.add_assoc]

theorem parseArray_cons (f pos : Nat) (c0 : Char) (t : List Char)
    (hw : isWhite c0 = false) (hne : c0 ≠ ']') :
    parseArray (f + 1) pos ('[' :: (c0 :: t)) = arrLoop f [] (pos + 1) (c0 :: t) := by
  rw [parseArray.eq_def]
  dsimp only
  rw [skipWhitespace_not_white c0 (pos + 1) t hw]
  split
  · rename_i r2 heq
    injection heq with h1 h2
    exact absurd h1 hne
  · rfl

theorem parseObject_cons (f pos : Nat) (c0 : Char) (t : List Char)
    (hw : isWhite c0 = false) (hne : c0 ≠ '}') :
    parseObject (f + 1) pos ('{' :: (c0 :: t)) = objLoop f [] (pos + 1) (c0 :: t) := by
  rw [parseObject.eq_def]
  dsimp only
  rw [skipWhitespace_not_white c0 (pos + 1) t hw]
  split
  · rename_i r2 heq
    injection heq with h1 h2
    exact absurd h1 hne
  · rfl

theorem parse_null (f pos : Nat) (rest : List Char) :
    parse (f + 1) pos (str "null" ++ rest) = .ok .vnull (pos + 4) rest := by
  rw [parse.eq_def]
  dsimp only
  rw [show str "null" ++ rest = 'n' :: ('u' :: 'l' :: 'l' :: rest) from rfl]
  rw [skipWhitespace_not_white 'n' pos ('u' :: 'l' :: 'l' :: rest) (by decide)]
  dsimp only
  simp [str]

theorem parse_true (f pos : Nat) (rest : List Char) :
    parse (f + 1) pos (str "true" ++ rest) = .ok (.vbool true) (pos + 4) rest := by
  rw [parse.eq_def]
  dsimp only
  rw [show str "true" ++ rest = 't' :: ('r' :: 'u' :: 'e' :: rest) from rfl]
  rw [skipWhitespace_not_white 't' pos ('r' :: 'u' :: 'e' :: rest) (by decide)]
  dsimp only
  simp [str]

theorem parse_bfalse (f pos : Nat) (rest : List Char) :
    parse (f + 1) pos (str "false" ++ rest) = .ok (.vbool false) (pos + 5) rest := by
  rw [parse.eq_def]
  dsimp only
  rw [show str "false" ++ rest = 'f' :: ('a' :: 'l' :: 's' :: 'e' :: rest) from rfl]
  rw [skipWhitespace_not_white 'f' pos ('a' :: 'l' :: 's' :: 'e' :: rest) (by decide)]
  dsimp only
  simp [str]

theorem parse_quote (f pos : Nat) (tail : List Char) :
    parse (f + 1) pos ('"' :: tail)
      = (match parseString pos ('"' :: tail) with
         | .ok a p r => .ok (.vstr a) p r
         | .err e => .err e
         | .crash => .crash
         | .fuelOut => .fuelOut) := by
  rw [parse.eq_def]
  dsimp only
  rw [skipWhitespace_not_white '"' pos tail (by decide)]
  simp

theorem writeArrBody_head {es : List GoVal} {body : List Char} (hok : rtOKArr es = true)
    (hne : es ≠ []) (hbw : writeArrBody es = .ok body) :
    ∃ c t, body = c :: t ∧ isWhite c = false ∧ c ≠ ']' ∧ c ≠ '}' := by
  cases es with
  | nil => exact absurd rfl hne
  | cons x tl =>
    rw [rtOKArr, Bool.and_eq_true] at hok
    rw [writeArrBody] at hbw
    split at hbw
    · cases hbw
    · rename_i ex hwx
      split at hbw
      · cases hbw
      · rename_i etl hwtl
        cases hbw
        obtain ⟨c, t, hex, hw, hbr, hbc⟩ := writeJSON_head hok.1 hwx
        exact ⟨c, t ++ (if tl.isEmpty then [] else ',' :: etl), by rw [hex]; simp, hw, hbr, hbc⟩

theorem writeObjBody_head {kvs : Doc} {body : List Char} (hne : kvs ≠ [])
    (hbw : writeObjBody kvs = .ok body) : ∃ t, body = '"' :: t := by
  cases kvs with
  | nil => exact absurd rfl hne
  | cons kv tl =>
    obtain ⟨k, v⟩ := kv
    rw [writeObjBody] at hbw
    split at hbw
    · cases hbw
    · rename_i ev hwv
      split at hbw
      · cases hbw
      · rename_i etl hwtl
        cases hbw
        refine ⟨escBody k ++ '"' :: ((':' :: ev) ++ (if tl.isEmpty then [] else ',' :: etl)), ?_⟩
        simp [escapeString]

theorem keyNotIn_spec {k : List Char} :
    ∀ {ms : Doc}, keyNotIn k ms = true → ∀ q ∈ ms, q.1 ≠ k := by
  intro ms
  induction ms with
  | nil => intro _ q hq; cases hq
  | cons p rest ih =>
    obtain ⟨k2, v2⟩ := p
    intro h q hq
    rw [keyNotIn, Bool.and_eq_true] at h
    cases hq with
    | head => simpa using h.1
    | tail _ hq2 => exact ih h.2 q hq2

theorem insertKV_fresh {k : List Char} {v : GoVal} :
    ∀ {obj : Doc}, (∀ q ∈ obj, q.1 ≠ k) → insertKV obj k v = obj ++ [(k, v)] := by
  intro obj
  induction obj with
  | nil => intro _; rfl
  | cons q rest ih =>
    intro h
    obtain ⟨k0, v0⟩ := q
    rw [insertKV, if_neg, List.cons_append]
    · rw [ih fun q2 hq2 => h q2 (List.mem_cons_of_mem _ hq2)]
    · exact h (k0, v0) (List.mem_cons_self _ _)

mutual
/-- Every value of the round-trip fragment encodes successfully. -/
theorem writeJSON_ok : ∀ v : GoVal, rtOK v = true → ∃ enc, writeJSON v = .ok enc
  | .vnull, _ => ⟨str "null", by rfl⟩
  | .vbool b, _ => ⟨if b then str "true" else str "false", by rfl⟩
  | .vstr s, _ => ⟨escapeString s, by rfl⟩
  | .vint _, h => by simp [rtOK] at h
  | .vint64 _, h => by simp [rtOK] at h
  | .vfloat _ _ _, h => by simp [rtOK] at h
  | .varr xs, h => by
    obtain ⟨body, hb⟩ := writeArrBody_ok xs (by simpa [rtOK] using h)
    exact ⟨'[' :: body ++ [']'], by rw [writeJSON, hb]⟩
  | .vobj kvs, h => by
    obtain ⟨body, hb⟩ := writeObjBody_ok kvs (by simpa [rtOK] using h)
    exact ⟨'{' :: body ++ ['}'], by rw [writeJSON, hb]⟩

theorem writeArrBody_ok : ∀ xs : List GoVal, rtOKArr xs = true →
    ∃ body, writeArrBody xs = .ok body
  | [], _ => ⟨[], by rfl⟩
  | x :: tl, h => by
    rw [rtOKArr, Bool.and_eq_true] at h
    obtain ⟨ex, hx⟩ := writeJSON_ok x h.1
    obtain ⟨etl, htl⟩ := writeArrBody_ok tl h.2
    exact ⟨ex ++ (if List.isEmpty tl then [] else ',' :: etl), by rw [writeArrBody, hx, htl]⟩

theorem writeObjBody_ok : ∀ kvs : List (List Char × GoVal), rtOKObj kvs = true →
    ∃ body, writeObjBody kvs = .ok body
  | [], _ => ⟨[], by rfl⟩
  | (k, v) :: tl, h => by
    simp only [rtOKObj, Bool.and_eq_true] at h
    obtain ⟨ev, hv⟩ := writeJSON_ok v h.1.1.2
    obtain ⟨etl, htl⟩ := writeObjBody_ok tl h.2
    exact ⟨escapeString k ++ ':' :: ev ++ (if List.isEmpty tl then [] else ',' :: etl),
      by rw [writeObjBody, hv, htl]⟩
end

/-- One `arrLoop` iteration on the last element: the element parses, then the
closing bracket is consumed. -/
theorem arrLoop_last (f pos pos2 : Nat) (acc : List GoVal) (x : GoVal) (c : Char)
    (t rest : List Char)
    (hp : parse f pos ((c :: t) ++ ']' :: rest) = .ok x pos2 (']' :: rest)) :
    arrLoop (f + 1) acc pos ((c :: t) ++ ']' :: rest)
      = .ok (.varr (acc ++ [x])) (pos2 + 1) rest := by
  rw [List.cons_append, arrLoop.eq_def]
  dsimp only
  rw [← List.cons_append, hp]
  dsimp only
  rw [skipWhitespace_not_white ']' pos2 rest (by decide)]
  dsimp only
  split
  · rename_i r3 heq
    injection heq with h1 h2
    subst h2
    rfl
  · rename_i r3 heq
    injection heq with h1 h2
    exact absurd h1 (by decide)
  · rename_i hne1 hne2
    exact absurd rfl (hne1 rest)

/-- One `arrLoop` iteration on a non-final element: the element parses, the
comma is consumed, and the loop continues at the next element. -/
theorem arrLoop_comma (f pos pos2 : Nat) (acc : List GoVal) (x : GoVal) (c c2 : Char)
    (t t2 : List Char) (hwc2 : isWhite c2 = false)
    (hp : parse f pos ((c :: t) ++ ',' :: c2 :: t2) = .ok x pos2 (',' :: c2 :: t2)) :
    arrLoop (f + 1) acc pos ((c :: t) ++ ',' :: c2 :: t2)
      = arrLoop f (acc ++ [x]) (pos2 + 1) (c2 :: t2) := by
  rw [List.cons_append, arrLoop.eq_def]
  dsimp only
  rw [← List.cons_append, hp]
  dsimp only
  rw [skipWhitespace_not_white ',' pos2 (c2 :: t2) (by decide)]
  dsimp only
  split
  · rename_i r3 heq
    injection heq with h1 h2
    exact absurd h1 (by decide)
  · rename_i r3 heq
    injection heq with h1 h2
    subst h2
    rw [skipWhitespace_not_white c2 (pos2 + 1) t2 hwc2]
  · rename_i hne1 hne2
    exact absurd rfl (hne2 (c2 :: t2))

/-- One `objLoop` iteration on the last member: key, colon and value are
consumed, then the closing brace. -/
theorem objLoop_last (f pos : Nat) (obj : List (List Char × GoVal)) (k : List Char)
    (hk : k.all charOK = true) (x : GoVal) (ev rest : List Char)
    (hp : ∀ p : Nat, parse f p (ev ++ '}' :: rest) = .ok x (p + ev.length) ('}' :: rest)) :
    objLoop (f + 1) obj pos (escapeString k ++ ':' :: (ev ++ '}' :: rest))
      = .ok (.vobj (insertKV obj k x)) (pos + (escapeString k).length + 1 + ev.length + 1)
          rest := by
  have hshape : escapeString k ++ ':' :: (ev ++ '}' :: rest)
      = '"' :: (escBody k ++ '"' :: ':' :: (ev ++ '}' :: rest)) := by
    simp [escapeString]
  rw [hshape, objLoop.eq_def]
  dsimp only
  rw [skipWhitespace_not_white '"' pos (escBody k ++ '"' :: ':' :: (ev ++ '}' :: rest))
    (by decide)]
  dsimp only
  rw [if_neg (fun hcon => hcon rfl)]
  rw [← hshape, parseString_escapeString k hk pos (':' :: (ev ++ '}' :: rest))]
  dsimp only
  rw [skipWhitespace_not_white ':' (pos + (escapeString k).length) (ev ++ '}' :: rest)
    (by decide)]
  dsimp only
  split
  · rename_i r4 heq
    injection heq with h1 h2
    subst h2
    rw [hp (pos + (escapeString k).length + 1)]
    dsimp only
    rw [skipWhitespace_not_white '}' (pos + (escapeString k).length + 1 + ev.length) rest
      (by decide)]
    dsimp only
    split
    · rename_i r8 heq2
      injection heq2 with h3 h4
      subst h4
      rfl
    · rename_i r8 heq2
      injection heq2 with h3 h4
      exact absurd h3 (by decide)
    · rename_i hne1 hne2
      exact absurd rfl (hne1 rest)
  · rename_i hne1
    exact absurd rfl (hne1 (ev ++ '}' :: rest))

/-- One `objLoop` iteration on a non-final member: key, colon and value are
consumed, the comma is consumed, and the loop continues. -/
theorem objLoop_comma (f pos : Nat) (obj : List (List Char × GoVal)) (k : List Char)
    (hk : k.all charOK = true) (x : GoVal) (ev t3 : List Char)
    (hp : ∀ p : Nat, parse f p (ev ++ ',' :: t3) = .ok x (p + ev.length) (',' :: t3)) :
    objLoop (f + 1) obj pos (escapeString k ++ ':' :: (ev ++ ',' :: t3))
      = objLoop f (insertKV obj k x) (pos + (escapeString k).length + 1 + ev.length + 1)
          t3 := by
  have hshape : escapeString k ++ ':' :: (ev ++ ',' :: t3)
      = '"' :: (escBody k ++ '"' :: ':' :: (ev ++ ',' :: t3)) := by
    simp [escapeString]
  rw [hshape, objLoop.eq_def]
  dsimp only
  rw [skipWhitespace_not_white '"' pos (escBody k ++ '"' :: ':' :: (ev ++ ',' :: t3))
    (by decide)]
  dsimp only
  rw [if_neg (fun hcon => hcon rfl)]
  rw [← hshape, parseString_escapeString k hk pos (':' :: (ev ++ ',' :: t3))]
  dsimp only
  rw [skipWhitespace_not_white ':' (pos + (escapeString k).length) (ev ++ ',' :: t3)
    (by decide)]
  dsimp only
  split
  · rename_i r4 heq
    injection heq with h1 h2
    subst h2
    rw [hp (pos + (escapeString k).length + 1)]
    dsimp only
    rw [skipWhitespace_not_white ',' (pos + (escapeString k).length + 1 + ev.length) t3
      (by decide)]
    dsimp only
    split
    · rename_i r8 heq2
      injection heq2 with h3 h4
      exact absurd h3 (by decide)
    · rename_i r8 heq2
      injection heq2 with h3 h4
      subst h4
      rfl
    · rename_i hne1 hne2
      exact absurd rfl (hne2 t3)
  · rename_i hne1
    exact absurd rfl (hne1 (ev ++ ',' :: t3))

mutual
/-- Round trip of the fragment: parsing an encoding consumes exactly the
encoding, returns the encoded value, and leaves the rest, for any fuel of at
least three units per encoded character. -/
theorem parse_rt : ∀ (v : GoVal) (enc : List Char), rtOK v = true → writeJSON v = .ok enc →
    ∀ (fuel pos : Nat) (rest : List Char), 3 * enc.length ≤ fuel →
    parse fuel pos (enc ++ rest) = .ok v (pos + enc.length) rest
  | .vint _, _, hok, _ => by simp [rtOK] at hok
  | .vint64 _, _, hok, _ => by simp [rtOK] at hok
  | .vfloat _ _ _, _, hok, _ => by simp [rtOK] at hok
  | .vnull, enc, _, henc => by
    cases henc
    intro fuel pos rest hfuel
    have hlen : (str "null").length = 4 := rfl
    cases fuel with
    | zero => exfalso; omega
    | succ f =>
      rw [hlen]
      exact parse_null f pos rest
  | .vbool true, enc, _, henc => by
    have h2 : writeJSON (.vbool true) = .ok (str "true") := by rfl
    rw [h2] at henc
    cases henc
    intro fuel pos rest hfuel
    have hlen : (str "true").length = 4 := rfl
    cases fuel with
    | zero => exfalso; omega
    | succ f =>
      rw [hlen]
      exact parse_true f pos rest
  | .vbool false, enc, _, henc => by
    have h2 : writeJSON (.vbool false) = .ok (str "false") := by rfl
    rw [h2] at henc
    cases henc
    intro fuel pos rest hfuel
    have hlen : (str "false").length = 5 := rfl
    cases fuel with
    | zero => exfalso; omega
    | succ f =>
      rw [hlen]
      exact parse_bfalse f pos rest
  | .vstr s, enc, hok, henc => by
    rw [rtOK] at hok
    cases henc
    intro fuel pos rest hfuel
    have hlen : (escapeString s).length = (escBody s).length + 2 := by
      rw [escapeString]
      simp only [List.length_append, List.length_cons, List.length_nil]
    cases fuel with
    | zero => exfalso; omega
    | succ f =>
      have hshape : escapeString s ++ rest = '"' :: (escBody s ++ '"' :: rest) := by
        simp [escapeString]
      rw [hshape, parse_quote, ← hshape, parseString_escapeString s hok pos rest]
  | .varr xs, enc, hok, henc => by
    rw [rtOK] at hok
    rw [writeJSON] at henc
    split at henc
    · rename_i body hbw
      cases henc
      intro fuel pos rest hfuel
      have hlen : ('[' :: body ++ [']']).length = body.length + 2 := by
        simp only [List.length_append, List.length_cons, List.length_nil]
      cases fuel with
      | zero => exfalso; omega
      | succ f =>
        cases f with
        | zero => exfalso; omega
        | succ f2 =>
          cases xs with
          | nil =>
            rw [writeArrBody] at hbw
            cases hbw
            rw [show ('[' :: ([] : List Char) ++ [']']) ++ rest = '[' :: ']' :: rest
              from rfl]
            rw [parse_lbracket, parseArray_empty]
            simp
          | cons y tl =>
            obtain ⟨c, t, hbx, hwc, hc1, hc2⟩ :=
              writeArrBody_head hok (List.cons_ne_nil y tl) hbw
            subst hbx
            rw [show ('[' :: (c :: t) ++ [']']) ++ rest = '[' :: (c :: (t ++ ']' :: rest))
              by simp]
            rw [parse_lbracket]
            rw [parseArray_cons f2 pos c (t ++ ']' :: rest) hwc hc1]
            rw [show c :: (t ++ ']' :: rest) = (c :: t) ++ ']' :: rest from rfl]
            rw [arrLoop_rt (y :: tl) (c :: t) hok (List.cons_ne_nil y tl) hbw f2 (pos + 1)
              [] rest (by
                simp only [List.length_append, List.length_cons, List.length_nil]
                  at hfuel ⊢
                omega)]
            rw [List.nil_append]
            congr 1
            simp only [List.length_append, List.length_cons, List.length_nil]
            omega
    · rename_i e hbw
      cases henc
  | .vobj kvs, enc, hok, henc => by
    rw [rtOK] at hok
    rw [writeJSON] at henc
    split at henc
    · rename_i body hbw
      cases henc
      intro fuel pos rest hfuel
      have hlen : ('{' :: body ++ ['}']).length = body.length + 2 := by
        simp only [List.length_append, List.length_cons, List.length_nil]
      cases fuel with
      | zero => exfalso; omega
      | succ f =>
        cases f with
        | zero => exfalso; omega
        | succ f2 =>
          cases kvs with
          | nil =>
            rw [writeObjBody] at hbw
            cases hbw
            rw [show ('{' :: ([] : List Char) ++ ['}']) ++ rest = '{' :: '}' :: rest
              from rfl]
            rw [parse_lbrace, parseObject_empty]
            simp
          | cons kv tl =>
            obtain ⟨t, hbx⟩ := writeObjBody_head (List.cons_ne_nil kv tl) hbw
            subst hbx
            rw [show ('{' :: ('"' :: t) ++ ['}']) ++ rest
                = '{' :: ('"' :: (t ++ '}' :: rest)) by simp]
            rw [parse_lbrace]
            rw [parseObject_cons f2 pos '"' (t ++ '}' :: rest) (by decide) (by decide)]
            rw [show '"' :: (t ++ '}' :: rest) = ('"' :: t) ++ '}' :: rest from rfl]
            rw [objLoop_rt (kv :: tl) ('"' :: t) hok (List.cons_ne_nil kv tl) hbw f2
              (pos + 1) [] rest
              (by
                simp only [List.length_append, List.length_cons, List.length_nil]
                  at hfuel ⊢
                omega)
              (fun p hp q hq => absurd hq (List.not_mem_nil q))]
            rw [List.nil_append]
            congr 1
            simp only [List.length_append, List.length_cons, List.length_nil]
            omega
    · rename_i e hbw
      cases henc

/-- The element loop eats an encoded comma-separated array body followed by
the closing bracket, appending the elements to the accumulator. -/
theorem arrLoop_rt : ∀ (es : List GoVal) (body : List Char), rtOKArr es = true →
    es ≠ [] → writeArrBody es = .ok body →
    ∀ (fuel pos : Nat) (acc : List GoVal) (rest : List Char), 3 * body.length + 2 ≤ fuel →
    arrLoop fuel acc pos (body ++ ']' :: rest)
      = .ok (.varr (acc ++ es)) (pos + body.length + 1) rest
  | [], _, _, hne, _ => absurd rfl hne
  | x :: tl, body, hok, _, hbw => by
    rw [rtOKArr, Bool.and_eq_true] at hok
    rw [writeArrBody] at hbw
    split at hbw
    · cases hbw
    · rename_i ex hwx
      split at hbw
      · cases hbw
      · rename_i etl hwtl
        cases hbw
        intro fuel pos acc rest hfuel
        cases tl with
        | nil =>
          rw [show (if List.isEmpty ([] : List GoVal) then ([] : List Char)
              else ',' :: etl) = [] from rfl] at hfuel ⊢
          rw [List.append_nil] at hfuel ⊢
          obtain ⟨c, t, hex, hwc, hc1, hc2⟩ := writeJSON_head hok.1 hwx
          subst hex
          cases fuel with
          | zero => exfalso; omega
          | succ f =>
            have hp : parse f pos ((c :: t) ++ ']' :: rest)
                = .ok x (pos + (c :: t).length) (']' :: rest) :=
              parse_rt x (c :: t) hok.1 hwx f pos (']' :: rest) (by omega)
            rw [arrLoop_last f pos (pos + (c :: t).length) acc x c t rest hp]
        | cons y tl2 =>
          rw [show (if List.isEmpty (y :: tl2) then ([] : List Char) else ',' :: etl)
              = ',' :: etl from rfl] at hfuel ⊢
          obtain ⟨c, t, hex, hwc, hc1, hc2⟩ := writeJSON_head hok.1 hwx
          subst hex
          obtain ⟨c2, t2, hetl, hwc2, hd1, hd2⟩ :=
            writeArrBody_head hok.2 (List.cons_ne_nil y tl2) hwtl
          subst hetl
          cases fuel with
          | zero =>
            exfalso
            simp only [List.length_append, List.length_cons] at hfuel
            omega
          | succ f =>
            rw [show ((c :: t) ++ ',' :: c2 :: t2) ++ ']' :: rest
                = (c :: t) ++ ',' :: c2 :: (t2 ++ ']' :: rest) by simp]
            have hp : parse f pos ((c :: t) ++ ',' :: c2 :: (t2 ++ ']' :: rest))
                = .ok x (pos + (c :: t).length) (',' :: c2 :: (t2 ++ ']' :: rest)) :=
              parse_rt x (c :: t) hok.1 hwx f pos (',' :: c2 :: (t2 ++ ']' :: rest)) (by
                simp only [List.length_append, List.length_cons] at hfuel ⊢
                omega)
            rw [arrLoop_comma f pos (pos + (c :: t).length) acc x c c2 t
              (t2 ++ ']' :: rest) hwc2 hp]
            rw [show c2 :: (t2 ++ ']' :: rest) = (c2 :: t2) ++ ']' :: rest from rfl]
            rw [arrLoop_rt (y :: tl2) (c2 :: t2) hok.2 (List.cons_ne_nil y tl2) hwtl f
              (pos + (c :: t).length + 1) (acc ++ [x]) rest (by
                simp only [List.length_append, List.length_cons] at hfuel ⊢
                omega)]
            congr 1
            · simp
            · simp only [List.length_append, List.length_cons]
              omega

/-- The member loop eats an encoded comma-separated object body followed by
the closing brace, appending the members (all keys fresh) to the
accumulated object. -/
theorem objLoop_rt : ∀ (ms : List (List Char × GoVal)) (body : List Char),
    rtOKObj ms = true → ms ≠ [] → writeObjBody ms = .ok body →
    ∀ (fuel pos : Nat) (obj : List (List Char × GoVal)) (rest : List Char),
    3 * body.length + 2 ≤ fuel →
    (∀ p ∈ ms, ∀ q ∈ obj, q.1 ≠ p.1) →
    objLoop fuel obj pos (body ++ '}' :: rest)
      = .ok (.vobj (obj ++ ms)) (pos + body.length + 1) rest
  | [], _, _, hne, _ => absurd rfl hne
  | (k, x) :: tl, body, hok, _, hbw => by
    simp only [rtOKObj, Bool.and_eq_true] at hok
    rw [writeObjBody] at hbw
    split at hbw
    · cases hbw
    · rename_i ev hwx
      split at hbw
      · cases hbw
      · rename_i etl hwtl
        cases hbw
        intro fuel pos obj rest hfuel hfresh
        have hins : insertKV obj k x = obj ++ [(k, x)] :=
          insertKV_fresh fun q hq => hfresh (k, x) (List.mem_cons_self _ _) q hq
        cases tl with
        | nil =>
          rw [show (if List.isEmpty ([] : List (List Char × GoVal)) then ([] : List Char)
              else ',' :: etl) = [] from rfl] at hfuel ⊢
          rw [List.append_nil] at hfuel ⊢
          cases fuel with
          | zero =>
            exfalso
            simp only [List.length_append, List.length_cons] at hfuel
            omega
          | succ f =>
            rw [show (escapeString k ++ ':' :: ev) ++ '}' :: rest
                = escapeString k ++ ':' :: (ev ++ '}' :: rest) by simp]
            have hp : ∀ p : Nat, parse f p (ev ++ '}' :: rest)
                = .ok x (p + ev.length) ('}' :: rest) :=
              fun p => parse_rt x ev hok.1.1.2 hwx f p ('}' :: rest) (by
                simp only [List.length_append, List.length_cons] at hfuel ⊢
                omega)
            rw [objLoop_last f pos obj k hok.1.1.1 x ev rest hp]
            rw [hins]
            congr 1
            simp only [List.length_append, List.length_cons]
            omega
        | cons kv2 tl2 =>
          rw [show (if List.isEmpty (kv2 :: tl2) then ([] : List Char) else ',' :: etl)
              = ',' :: etl from rfl] at hfuel ⊢
          obtain ⟨t2, hetl⟩ := writeObjBody_head (List.cons_ne_nil kv2 tl2) hwtl
          subst hetl
          cases fuel with
          | zero =>
            exfalso
            simp only [List.length_append, List.length_cons] at hfuel
            omega
          | succ f =>
            rw [show (escapeString k ++ ':' :: ev ++ ',' :: '"' :: t2) ++ '}' :: rest
                = escapeString k ++ ':' :: (ev ++ ',' :: (('"' :: t2) ++ '}' :: rest))
              by simp]
            have hp : ∀ p : Nat, parse f p (ev ++ ',' :: (('"' :: t2) ++ '}' :: rest))
                = .ok x (p + ev.length) (',' :: (('"' :: t2) ++ '}' :: rest)) :=
              fun p => parse_rt x ev hok.1.1.2 hwx f p
                (',' :: (('"' :: t2) ++ '}' :: rest)) (by
                  simp only [List.length_append, List.length_cons] at hfuel ⊢
                  omega)
            rw [objLoop_comma f pos obj k hok.1.1.1 x ev (('"' :: t2) ++ '}' :: rest) hp]
            rw [hins]
            have hfresh2 : ∀ p ∈ (kv2 :: tl2), ∀ q ∈ obj ++ [(k, x)], q.1 ≠ p.1 := by
              intro p hp2 q hq
              rcases List.mem_append.mp hq with hq1 | hq2
              · exact hfresh p (List.mem_cons_of_mem _ hp2) q hq1
              · have hqe : q = (k, x) := by simpa using hq2
                subst hqe
                exact fun hh => keyNotIn_spec hok.1.2 p hp2 hh.symm
            rw [objLoop_rt (kv2 :: tl2) ('"' :: t2) hok.2 (List.cons_ne_nil kv2 tl2) hwtl
              f (pos + (escapeString k).length + 1 + ev.length + 1) (obj ++ [(k, x)])
              rest (by
                simp only [List.length_append, List.length_cons] at hfuel ⊢
                omega)
              hfresh2]
            congr 1
            · simp
            · simp only [List.length_append, List.length_cons]
              omega
end

/-- C2 (amended): on the encoder's accepted shapes restricted to the fragment
that actually round-trips — Null, Bool, Strings free of U+10FFFF, Arrays and
Objects (with duplicate-free keys) of such values; Integer excluded per the
claim, Float excluded as integral floats re-decode as Integer — encoding
succeeds and decoding the produced bytes returns a structurally equal value. -/
theorem roundtrip_amended (v : GoVal) (hok : rtOK v = true) :
    ∃ enc, marshalJSON v = .ok enc ∧ unmarshalAny enc = .ok v := by
  obtain ⟨enc, henc⟩ := writeJSON_ok v hok
  refine ⟨enc, henc, ?_⟩
  have hparse := parse_rt v enc hok henc (fuelFor enc) 0 [] (by
    simp only [fuelFor]
    omega)
  rw [List.append_nil] at hparse
  rw [unmarshalAny, hparse]

/-- C2 counterexample to the unrestricted claim: the string value containing
U+10FFFF is an accepted shape, yet the encoder's `\u%04x` escape emits six
hex digits for it while the decoder consumes exactly four, so the value
re-decodes as a different three-character string. -/
theorem roundtrip_u10ffff_fails :
    marshalJSON (.vstr [Char.ofNat 0x10FFFF]) = .ok (str "\"\\u10ffff\"")
    ∧ unmarshalAny (str "\"\\u10ffff\"") = .ok (.vstr [Char.ofNat 0x10FF, 'f', 'f'])
    ∧ [Char.ofNat 0x10FF, 'f', 'f'] ≠ [Char.ofNat 0x10FFFF] :=
  ⟨by rfl, by rfl, by decide⟩

/-- C2 witness: the amended round trip evaluated on a concrete object with a
nested array of null, booleans and a string. -/
theorem roundtrip_amended_witness :
    rtOK (.vobj [(str "a", .varr [.vbool true, .vnull, .vstr (str "hi")]),
      (str "b", .vbool false)]) = true
    ∧ ∃ enc, marshalJSON (.vobj [(str "a", .varr [.vbool true, .vnull, .vstr (str "hi")]),
        (str "b", .vbool false)]) = .ok enc
      ∧ unmarshalAny enc
          = .ok (.vobj [(str "a", .varr [.vbool true, .vnull, .vstr (str "hi")]),
            (str "b", .vbool false)]) :=
  ⟨by decide, roundtrip_amended (.vobj [(str "a",
      .varr [.vbool true, .vnull, .vstr (str "hi")]), (str "b", .vbool false)]) (by decide)⟩

end JotDB
